import Mathlib

/-!
# TAU-Robot simulator: scheduler and scoring

A shallow embedding of `Simulator::simulate`, `Simulator::score` and
`Simulator::getActualPosition` (src/TAU-Robot/src/Simulator.cpp), and the
properties of the round-robin scheduler and of the ranking that follow from
the code; and of the constructor `Simulator::Simulator`, of the file
discovery (`endsWith`, `loadFilesWithSuffix`) and of the plugin loader
`AlgorithmLoader::AlgorithmLoader` (src/TAU-Robot/src/AlgorithmLoader.cpp).

`Simulation.cpp` is not among the sources, so the member functions of
`Simulation` that the simulator calls (`step`, `isDone`, `getStepsCount`,
`score`) are parameters of the development (`SimulationOps`), acting on an
arbitrary type `σ` of run states.  The vectors of the simulator hold
`Simulation*`; a pointer is modelled by the address it holds together with
the state of the object it points to.
-/

namespace TAURobot

/-! ## Data model -/

/-- A `Simulation*` of the simulator: the address held by the pointer and the
state of the `Simulation` object at that address.  `stepCalls` is a ghost
counter: the number of times `step()` has been invoked on the object. -/
structure Simulation (σ : Type) where
  addr : Nat
  obj : σ
  stepCalls : Nat
  deriving DecidableEq, Repr

/-- The member functions of `Simulation` used by the simulator
(`Simulation.h`, lines 32, 33 and 40, and the `score` call of
`Simulator.cpp`, line 229).  Their bodies are outside the sources. -/
structure SimulationOps (σ : Type) where
  /-- `bool step()`: the returned flag and the state after the call. -/
  step : σ → Bool × σ
  /-- `bool isDone() const`. -/
  isDone : σ → Bool
  /-- `int getStepsCount() const`, which returns `_robot.totalSteps`. -/
  getStepsCount : σ → Int
  /-- `score(position_in_competition, winner_num_steps, simulationSteps)`. -/
  score : σ → Int → Int → Int → Int

section Ranking

variable {σ : Type}

/-- The loop of `Simulator::getActualPosition` (lines 239-264), entered with
the iterator at the head of `rest`; `prev` is `*(p_it - 1)`, absent exactly
when `p_it == allSimulatios_.begin()`.  The loop condition compares the
pointer `*p_it` with `&currSimulation_`.  Running past the end of the vector
(the pointer is not in it) has no defined result: `none`.  The value is the
one returned at line 266, `std::min(actual_position_in_competition, 4)`. -/
def getActualPositionLoop (ops : SimulationOps σ) (curr : Simulation σ) :
    Option (Simulation σ) → List (Simulation σ) → Int → Option Int
  | _, [], _ => none
  | prev, p :: rest, pos =>
    if p.addr = curr.addr then some (min pos 4)
    else
      match prev with
      | none =>
        if ops.getStepsCount p.obj < ops.getStepsCount curr.obj then
          getActualPositionLoop ops curr (some p) rest (pos + 1)
        else some (min pos 4)
      | some q =>
        if ops.getStepsCount p.obj ≠ ops.getStepsCount q.obj then
          if pos + 1 ≥ 4 then some (min (pos + 1) 4)
          else getActualPositionLoop ops curr (some p) rest (pos + 1)
        else getActualPositionLoop ops curr (some p) rest pos

/-- `Simulator::getActualPosition` (lines 234-267). -/
def getActualPosition (ops : SimulationOps σ) (allSimulatios_ : List (Simulation σ))
    (currSimulation_ : Simulation σ) : Option Int :=
  getActualPositionLoop ops currSimulation_ none allSimulatios_ 1

/-- Modelled from the spec: `Simulation::operator<` is declared in
`Simulation.h` (line 53, "smaller = done with less steps") and defined outside
the sources.  The ordering rule of the specification: a finished run with
fewer steps ranks before one with more steps, any finished run ranks before
any unfinished run, two unfinished runs rank equal. -/
def rankedBefore (ops : SimulationOps σ) (a b : Simulation σ) : Bool :=
  (ops.isDone a.obj && ops.isDone b.obj
      && decide (ops.getStepsCount a.obj < ops.getStepsCount b.obj))
    || (ops.isDone a.obj && !ops.isDone b.obj)

/-- A cohort is ordered by the ordering rule when no run is ranked before a
run that precedes it in the list. -/
def OrderedByRule (ops : SimulationOps σ) (l : List (Simulation σ)) : Prop :=
  l.Pairwise (fun a b => rankedBefore ops b a = false)

instance (ops : SimulationOps σ) (l : List (Simulation σ)) : Decidable (OrderedByRule ops l) := by
  unfold OrderedByRule; infer_instance

/-- The number of places in a list of step counts at which the step count
differs from the previous one. -/
def stepChanges : List Int → Nat
  | a :: b :: rest => (if a ≠ b then 1 else 0) + stepChanges (b :: rest)
  | _ => 0

/-- The capped dense rank of the specification for the run at index `k`:
`min(4, 1 + the number of step-count changes from the first run to run k)`. -/
def denseRank (ops : SimulationOps σ) (l : List (Simulation σ)) (k : Nat) : Int :=
  min 4 (1 + (stepChanges ((l.take (k + 1)).map (fun s => ops.getStepsCount s.obj)) : Int))

end Ranking

/-! ## The scheduler loop of `Simulator::simulate` -/

section Scheduler

variable {σ : Type}

/-- The local variables of the scheduler loop (lines 109 and 129-131):
the active runs `simulations`, the stopped runs `tempSoppedSimulatios`, the
winner flag and the two counters. -/
structure LoopState (σ : Type) where
  simulations : List (Simulation σ)
  tempSoppedSimulatios : List (Simulation σ)
  atLeastOneDone : Bool
  stepsCount : Int
  afterStepsCount : Int
  deriving DecidableEq, Repr

/-- The state on entry to the scheduler loop (lines 129-131). -/
def initState (simulations : List (Simulation σ)) : LoopState σ :=
  { simulations := simulations, tempSoppedSimulatios := [], atLeastOneDone := false,
    stepsCount := 0, afterStepsCount := -1 }

/-- The inner loop over the active runs (lines 134-163), entered with the
iterator at the head of the first list.  Every run is stepped once; a run
whose `step()` returned false or that is done is pushed onto the stopped
list and erased from the active list, and the winner flag is set when it is
done.  The result is the remaining active runs, the stopped list and the
flag. -/
def innerLoop (ops : SimulationOps σ) :
    List (Simulation σ) → List (Simulation σ) → Bool →
      List (Simulation σ) × List (Simulation σ) × Bool
  | [], stopped, flag => ([], stopped, flag)
  | s :: rest, stopped, flag =>
    let r := ops.step s.obj
    let s1 : Simulation σ := { addr := s.addr, obj := r.2, stepCalls := s.stepCalls + 1 }
    if !r.1 || ops.isDone r.2 then
      innerLoop ops rest (stopped ++ [s1]) (if ops.isDone r.2 then true else flag)
    else
      let out := innerLoop ops rest stopped flag
      (s1 :: out.1, out.2.1, out.2.2)

/-- One iteration of the scheduler loop (lines 134-169). -/
def loopBody (ops : SimulationOps σ) (s : LoopState σ) : LoopState σ :=
  let out := innerLoop ops s.simulations s.tempSoppedSimulatios s.atLeastOneDone
  { simulations := out.1
    tempSoppedSimulatios := out.2.1
    atLeastOneDone := out.2.2
    stepsCount := s.stepsCount + 1
    afterStepsCount := if out.2.2 then s.afterStepsCount + 1 else s.afterStepsCount }

/-- The condition of the scheduler loop (line 132). -/
def loopCond (maxSteps maxStepsAfterWinner : Int) (s : LoopState σ) : Bool :=
  decide (s.simulations.length > 0) && decide (s.stepsCount < maxSteps)
    && (if s.atLeastOneDone then decide (s.afterStepsCount < maxStepsAfterWinner) else true)

/-- The scheduler loop (lines 132-170) with a bound on the number of
iterations. -/
def whileLoop (ops : SimulationOps σ) (maxSteps maxStepsAfterWinner : Int) :
    Nat → LoopState σ → LoopState σ
  | 0, s => s
  | fuel + 1, s =>
    if loopCond maxSteps maxStepsAfterWinner s then
      whileLoop ops maxSteps maxStepsAfterWinner fuel (loopBody ops s)
    else s

/-- The scheduler loop run on a cohort.  Every iteration increments
`stepsCount`, which starts at 0 and must be below `maxSteps` for the loop to
go on, so `maxSteps` iterations are enough (`schedulerLoop_exits`). -/
def schedulerLoop (ops : SimulationOps σ) (maxSteps maxStepsAfterWinner : Int)
    (simulations : List (Simulation σ)) : LoopState σ :=
  whileLoop ops maxSteps maxStepsAfterWinner maxSteps.toNat (initState simulations)

/-- The cohort handed to `score` (line 176): the stopped runs appended to the
runs still active. -/
def merged (s : LoopState σ) : List (Simulation σ) :=
  s.simulations ++ s.tempSoppedSimulatios

/-- The loop variables after `j` iterations of the loop body on a cohort,
whether or not the loop condition lets the loop go that far. -/
def afterRounds (ops : SimulationOps σ) (simulations : List (Simulation σ)) (j : Nat) :
    LoopState σ :=
  (loopBody ops)^[j] (initState simulations)

/-- Some active run is done after the `step()` of the coming round. -/
def someRunBecomesDone (ops : SimulationOps σ) (s : LoopState σ) : Bool :=
  s.simulations.any (fun x => ops.isDone (ops.step x.obj).2)

end Scheduler

/-! ## `Simulator::score` -/

section Scoring

variable {σ α : Type}

/-- Line 213: `std::sort(simulatios_.begin(), simulatios_.end())` on a
`vector<Simulation*>` without a comparator orders the pointers by the
addresses they hold.  The addresses of a cohort are pairwise different, so
the result does not depend on the sorting algorithm. -/
def sortByAddress (l : List (Simulation σ)) : List (Simulation σ) :=
  l.insertionSort (fun a b => a.addr ≤ b.addr)

/-- Lines 215-216: the winner reference, read from the first run of the
sorted vector; `at(0)` throws on an empty vector (`none`). -/
def winnerNumSteps (ops : SimulationOps σ) (simulationSteps : Int)
    (sorted : List (Simulation σ)) : Option Int :=
  match sorted with
  | [] => none
  | firstSim :: _ =>
    some (if ops.isDone firstSim.obj then ops.getStepsCount firstSim.obj else simulationSteps)

/-- Lines 223-227: the position handed to the score computation. -/
def positionInCompetition (ops : SimulationOps σ) (simulatios_ : List (Simulation σ))
    (currentSim : Simulation σ) : Option Int :=
  if ops.isDone currentSim.obj then getActualPosition ops simulatios_ currentSim
  else some 10

/-- The algorithms of the simulator with their score histories (`_algos`). -/
abbrev AlgoVector (α : Type) := List (α × List Int)

/-- The loop of `Simulator::score` (lines 218-230), entered with the iterator
at the head of the second list and `index` its distance from the start of
the vector `all`.  Indexing `_algos` out of range has no defined result
(`none`). -/
def scoreLoop (ops : SimulationOps σ) (simulationSteps winner : Int)
    (all : List (Simulation σ)) :
    Nat → List (Simulation σ) → AlgoVector α → Option (AlgoVector α)
  | _, [], algos => some algos
  | index, currentSim :: rest, algos =>
    match positionInCompetition ops all currentSim, algos[index]? with
    | some position, some pair =>
      scoreLoop ops simulationSteps winner all (index + 1) rest
        (algos.set index
          (pair.1, pair.2 ++ [ops.score currentSim.obj position winner simulationSteps]))
    | _, _ => none

/-- `Simulator::score` (lines 211-231): the new value of `_algos`. -/
def score (ops : SimulationOps σ) (algos : AlgoVector α) (simulationSteps : Int)
    (simulatios_ : List (Simulation σ)) : Option (AlgoVector α) :=
  let sorted := sortByAddress simulatios_
  match winnerNumSteps ops simulationSteps sorted with
  | none => none
  | some winner => scoreLoop ops simulationSteps winner sorted 0 sorted algos

end Scoring

/-! ## `Simulator::simulate` -/

section Simulate

variable {σ α η : Type}

/-- What `Simulator::simulate` takes from outside the sources: the step budget
of a house (`House::getMaxSteps`), the constructor of `Simulation` applied to
the house and to the algorithm of an entry of `_algos`, and the address that
the `i`-th `new Simulation` for a house returns. -/
structure HouseEnv (α η σ : Type) where
  getMaxSteps : η → Int
  newSimulation : η → α → σ
  alloc : η → Nat → Nat

/-- Lines 116-123: one `new Simulation` per entry of `_algos`, in the order of
`_algos`; `i` is the number of runs created so far. -/
def instantiate (env : HouseEnv α η σ) (house : η) :
    Nat → AlgoVector α → List (Simulation σ)
  | _, [] => []
  | i, a :: rest =>
    { addr := env.alloc house i, obj := env.newSimulation house a.1, stepCalls := 0 }
      :: instantiate env house (i + 1) rest

/-- The body of the loop over the houses (lines 108-178). -/
def simulateHouse (env : HouseEnv α η σ) (ops : SimulationOps σ) (maxStepsAfterWinner : Int)
    (algos : AlgoVector α) (house : η) : Option (AlgoVector α) :=
  let final := schedulerLoop ops (env.getMaxSteps house) maxStepsAfterWinner
    (instantiate env house 0 algos)
  score ops algos final.stepsCount (merged final)

/-- The loop over the houses (lines 106-199). -/
def simulateHouses (env : HouseEnv α η σ) (ops : SimulationOps σ) (maxStepsAfterWinner : Int) :
    AlgoVector α → List η → Option (AlgoVector α)
  | algos, [] => some algos
  | algos, house :: rest =>
    match simulateHouse env ops maxStepsAfterWinner algos house with
    | none => none
    | some algos1 => simulateHouses env ops maxStepsAfterWinner algos1 rest

/-- `Simulator::simulate` (lines 99-199): the new value of `_algos`;
`maxStepsAfterWinner` is `_config["MaxStepsAfterWinner"]`. -/
def simulate (env : HouseEnv α η σ) (ops : SimulationOps σ) (maxStepsAfterWinner : Int)
    (algos : AlgoVector α) (houses : List η) : Option (AlgoVector α) :=
  if houses.length = 0 then some algos
  else simulateHouses env ops maxStepsAfterWinner algos houses

end Simulate

/-! ## The calls of `score` made by `simulate` -/

section ScoreCalls

variable {σ α η : Type}

/-- A call of `score` (line 178): the value of `_algos` at the call, the
elapsed round count and the cohort handed over. -/
structure ScoreCall (σ α : Type) where
  algos : AlgoVector α
  simulationSteps : Int
  simulatios_ : List (Simulation σ)

/-- The calls of `score` made by the loop over the houses, in order.  Every
run instantiated for a house (lines 116-123) is in the cohort of the call for
that house; the loop ends at a call that does not return. -/
def scoreCallsHouses (env : HouseEnv α η σ) (ops : SimulationOps σ) (maxStepsAfterWinner : Int) :
    AlgoVector α → List η → List (ScoreCall σ α)
  | _, [] => []
  | algos, house :: rest =>
    let final := schedulerLoop ops (env.getMaxSteps house) maxStepsAfterWinner
      (instantiate env house 0 algos)
    { algos := algos, simulationSteps := final.stepsCount, simulatios_ := merged final }
      :: (match score ops algos final.stepsCount (merged final) with
          | none => []
          | some algos1 => scoreCallsHouses env ops maxStepsAfterWinner algos1 rest)

/-- The calls of `score` made by `Simulator::simulate`. -/
def scoreCalls (env : HouseEnv α η σ) (ops : SimulationOps σ) (maxStepsAfterWinner : Int)
    (algos : AlgoVector α) (houses : List η) : List (ScoreCall σ α) :=
  if houses.length = 0 then []
  else scoreCallsHouses env ops maxStepsAfterWinner algos houses

/-- The number of runs instantiated by `simulate`. -/
def instantiatedRuns (calls : List (ScoreCall σ α)) : Nat :=
  (calls.map (fun c => c.simulatios_.length)).sum

/-- The number of invocations of `step()` made by `simulate`. -/
def stepInvocations (calls : List (ScoreCall σ α)) : Nat :=
  (calls.map (fun c => (c.simulatios_.map Simulation.stepCalls).sum)).sum

end ScoreCalls

/-! ## The constructor of `Simulator` -/

section Construction

variable {α η : Type}

/-- The members of `Simulator` written by the constructor. -/
structure Simulator (α η : Type) where
  _algos : AlgoVector α
  _houses : List η
  _errors : List String
  _successful : Bool

/-- What the constructor takes from `AlgorithmContainer` and `House`, whose
declarations are outside the sources: `isValid()` and `getErrorLine()`. -/
structure LoadEnv (α η : Type) where
  algoIsValid : α → Bool
  algoErrorLine : α → String
  houseIsValid : η → Bool
  houseErrorLine : η → String

/-- Modelled from the spec: `Simulator.h` is not among the sources.  The
members on entry to the constructor: the vectors are default-constructed
(empty), and `_successful` starts false, a start that finds nothing to run
being one that is not successful. -/
def Simulator.initial : Simulator α η :=
  { _algos := [], _houses := [], _errors := [], _successful := false }

/-- The loop over the algorithms (lines 25-35): `_algos` and `algoErrors`. -/
def algoLoop (le : LoadEnv α η) :
    List α → AlgoVector α × List String → AlgoVector α × List String
  | [], acc => acc
  | algo :: rest, acc =>
    if le.algoIsValid algo then algoLoop le rest (acc.1 ++ [(algo, [])], acc.2)
    else algoLoop le rest (acc.1, acc.2 ++ [le.algoErrorLine algo])

/-- The loop over the houses (lines 59-69): `_houses` and `_errors`. -/
def houseLoop (le : LoadEnv α η) :
    List η → List η × List String → List η × List String
  | [], acc => acc
  | house :: rest, acc =>
    if le.houseIsValid house then houseLoop le rest (acc.1 ++ [house], acc.2)
    else houseLoop le rest (acc.1, acc.2 ++ [le.houseErrorLine house])

/-- The loop that appends the algorithm errors to `_errors` (lines 79-82). -/
def concatErrors : List String → List String → List String
  | [], errors => errors
  | e :: rest, errors => concatErrors rest (errors ++ [e])

/-- The constructor `Simulator::Simulator` (lines 9-85); `allAlgos` and
`allHouses` are what `loadAllAlgos` and `loadAllHouses` return. -/
def Simulator.new (le : LoadEnv α η) (allAlgos : List α) (allHouses : List η) :
    Simulator α η :=
  let s0 : Simulator α η := Simulator.initial
  if allAlgos.length = 0 then s0
  else
    let a := algoLoop le allAlgos (s0._algos, [])
    let s1 : Simulator α η := { s0 with _algos := a.1 }
    if s1._algos.length = 0 then s1
    else if allHouses.length = 0 then s1
    else
      let h := houseLoop le allHouses (s1._houses, s1._errors)
      let s2 : Simulator α η := { s1 with _houses := h.1, _errors := h.2 }
      if s2._houses.length = 0 then s2
      else { s2 with _errors := concatErrors a.2 s2._errors, _successful := true }

end Construction

/-! ## `AlgorithmLoader` and the global registry -/

section Loader

variable {H φ : Type}

/-- The members of `AlgorithmLoader` written by its constructor. -/
structure AlgorithmLoader where
  _fileName : String
  _algoName : String
  _isValid : Bool
  _errorLine : String
  deriving DecidableEq, Repr

/-- What the constructor of `AlgorithmLoader` takes from outside the sources:
`dlopen` and `dlsym`, a null result being `none`, and the `filename()` and
`stem()` of a path. -/
structure DynamicLoader (H φ : Type) where
  dlopen : String → Option H
  dlsym : H → String → Option φ
  filename : String → String
  stem : String → String

/-- The global registry `globalFactory`, a `map<string, instanceCreator>`,
seen through its lookup. -/
abbrev Registry (φ : Type) := String → Option φ

/-- The assignment `globalFactory[name] = f` (line 40). -/
def Registry.assign (globalFactory : Registry φ) (name : String) (f : φ) : Registry φ :=
  fun key => if key = name then some f else globalFactory key

/-- The constructor `AlgorithmLoader::AlgorithmLoader` (lines 13-43): the
loader and the registry after the call.  On success `_errorLine` is left as
default-constructed, the empty string. -/
def AlgorithmLoader.new (os : DynamicLoader H φ) (globalFactory : Registry φ)
    (algorithmPath_ : String) : AlgorithmLoader × Registry φ :=
  let _fileName := os.filename algorithmPath_
  let _algoName := os.stem algorithmPath_
  match os.dlopen algorithmPath_ with
  | none =>
    ({ _fileName := _fileName, _algoName := _algoName, _isValid := false,
       _errorLine := _fileName ++ ": file cannot be loaded or is not a valid .so" },
     globalFactory)
  | some dlib =>
    match os.dlsym dlib "getAbstractAlgorithmPointer" with
    | none =>
      ({ _fileName := _fileName, _algoName := _algoName, _isValid := false,
         _errorLine := _fileName
           ++ ": valid .so file but no algorithm was registered after loading it" },
       globalFactory)
    | some function1 =>
      ({ _fileName := _fileName, _algoName := _algoName, _isValid := true, _errorLine := "" },
       globalFactory.assign _algoName function1)

end Loader

/-! ## File discovery -/

section Discovery

/-- A `std::string` of the file discovery: its sequence of characters, ordered
lexicographically as `std::string` is. -/
abbrev CppString := List Char

/-- `std::equal(first1, last1, first2)`: the first range compared, element by
element, with the range of the same length that starts at `first2`.  Reading
past the end of the second range does not happen under the guard of
`endsWith`; it counts as a mismatch. -/
def stdEqual : List Char → List Char → Bool
  | [], _ => true
  | _ :: _, [] => false
  | a :: as, b :: bs => if a = b then stdEqual as bs else false

/-- `Simulator::endsWith` (lines 388-392): the reversed ranges of `ending` and
`value` are compared. -/
def endsWith (value ending : CppString) : Bool :=
  if ending.length > value.length then false
  else stdEqual ending.reverse value.reverse

/-- The loop over the directory (lines 324-334); an entry of the listing is a
path and whether it is a regular file. -/
def loadFilesLoop (suffix : CppString) :
    List (CppString × Bool) → List CppString → List CppString
  | [], result => result
  | entry :: rest, result =>
    if entry.2 && endsWith entry.1 suffix then loadFilesLoop suffix rest (result ++ [entry.1])
    else loadFilesLoop suffix rest result

/-- `Simulator::loadFilesWithSuffix` (lines 308-337); `isDirectory` is
`is_directory(p)` and `listing` what the directory iterator yields.  The
`std::sort` of line 335 orders the strings lexicographically. -/
def loadFilesWithSuffix (isDirectory : Bool) (listing : List (CppString × Bool))
    (suffix : CppString) : List CppString :=
  if !isDirectory then []
  else (loadFilesLoop suffix listing []).insertionSort (fun a b => a ≤ b)

end Discovery

/-! ## A concrete family of runs, used for evaluating the definitions -/

/-- A scripted run: it finishes once `totalSteps` reaches `finishAt`, and
`step()` reports failure once `totalSteps` reaches `failAt`. -/
structure Script where
  finishAt : Int
  failAt : Int
  totalSteps : Int
  deriving DecidableEq, Repr

/-- The operations on scripted runs.  The score is the position the run is
given. -/
def scriptOps : SimulationOps Script where
  step := fun s =>
    if s.totalSteps = s.failAt then (false, s)
    else (true, { s with totalSteps := s.totalSteps + 1 })
  isDone := fun s => decide (s.totalSteps = s.finishAt)
  getStepsCount := fun s => s.totalSteps
  score := fun _ position _ _ => position

/-- A finished scripted run at address `a` with `n` steps. -/
def finishedRun (a : Nat) (n : Int) : Simulation Script :=
  { addr := a, obj := { finishAt := n, failAt := -1, totalSteps := n }, stepCalls := n.toNat }

/-- A fresh scripted run at address `a` that finishes at step `n` (never when
`n` is negative) and never fails. -/
def freshRun (a : Nat) (n : Int) : Simulation Script :=
  { addr := a, obj := { finishAt := n, failAt := -1, totalSteps := 0 }, stepCalls := 0 }

/-- An environment for scripted runs: an algorithm is the step at which it
finishes, a house is its step budget together with the addresses handed out
by the allocator. -/
def scriptEnv : HouseEnv Int (Int × List Nat) Script where
  getMaxSteps := fun h => h.1
  newSimulation := fun _ n => { finishAt := n, failAt := -1, totalSteps := 0 }
  alloc := fun h i => h.2.getD i 0

/-- Algorithms and houses for evaluating the constructor: a name and whether
the file is valid. -/
def testLoadEnv : LoadEnv (String × Bool) (String × Bool) where
  algoIsValid := fun a => a.2
  algoErrorLine := fun a => a.1 ++ ": invalid algorithm"
  houseIsValid := fun h => h.2
  houseErrorLine := fun h => h.1 ++ ": invalid house"

/-- A dynamic loader for evaluating `AlgorithmLoader.new`: `good_.so` opens
and exports factory 7, `empty_.so` opens and exports nothing, nothing else
opens. -/
def testLoader : DynamicLoader Nat Nat where
  dlopen := fun path => if path = "good_.so" then some 1 else if path = "empty_.so" then some 2
    else none
  dlsym := fun h name => if h = 1 ∧ name = "getAbstractAlgorithmPointer" then some 7 else none
  filename := fun path => path
  stem := fun path => if path = "good_.so" then "good_" else path

/-- An environment for evaluating `simulate` on the algorithms and houses of
`testLoadEnv`: every house has a budget of 3 rounds, no run ever finishes,
and the runs of a house are at addresses 0, 1, 2, ... -/
def testHouseEnv : HouseEnv (String × Bool) (String × Bool) Script where
  getMaxSteps := fun _ => 3
  newSimulation := fun _ _ => { finishAt := -1, failAt := -1, totalSteps := 0 }
  alloc := fun _ i => i

/-! ## Properties of `getActualPosition` -/

section RankingProperties

variable {σ : Type}

/-- Two members of a list whose addresses are pairwise different are equal
as soon as their addresses are. -/
lemma eq_of_addr_eq {l : List (Simulation σ)} (hnd : (l.map Simulation.addr).Nodup)
    {a b : Simulation σ} (ha : a ∈ l) (hb : b ∈ l) (h : a.addr = b.addr) : a = b := by
  induction l with
  | nil => cases ha
  | cons x xs ih =>
    simp only [List.map_cons, List.nodup_cons, List.mem_map, not_exists, not_and] at hnd
    rcases List.mem_cons.1 ha with rfl | ha1 <;> rcases List.mem_cons.1 hb with rfl | hb1
    · rfl
    · exact absurd h.symm (hnd.1 b hb1)
    · exact absurd h (hnd.1 a ha1)
    · exact ih hnd.2 ha1 hb1

/-- Whatever the loop of `getActualPosition` returns is at least the capped
running position and at most 4. -/
lemma getActualPositionLoop_bounds (ops : SimulationOps σ) (curr : Simulation σ) :
    ∀ (l : List (Simulation σ)) (prev : Option (Simulation σ)) (pos p : Int),
      getActualPositionLoop ops curr prev l pos = some p → min pos 4 ≤ p ∧ p ≤ 4 := by
  intro l
  induction l with
  | nil => intro prev pos p h; simp [getActualPositionLoop] at h
  | cons x xs ih =>
    intro prev pos p h
    cases prev <;> simp only [getActualPositionLoop] at h <;> split_ifs at h
    all_goals first
      | (simp only [Option.some.injEq] at h; omega)
      | (have hb := ih _ _ _ h; omega)

/-- The loop of `getActualPosition` returns when the pointer it looks for is
in the part of the vector still ahead. -/
lemma getActualPositionLoop_returns (ops : SimulationOps σ) (curr : Simulation σ) :
    ∀ (l : List (Simulation σ)) (prev : Option (Simulation σ)) (pos : Int),
      (∃ x ∈ l, x.addr = curr.addr) →
      ∃ p, getActualPositionLoop ops curr prev l pos = some p := by
  intro l
  induction l with
  | nil => intro prev pos h; obtain ⟨x, hx, -⟩ := h; cases hx
  | cons x xs ih =>
    intro prev pos h
    by_cases h1 : x.addr = curr.addr
    · cases prev <;> simp [getActualPositionLoop, h1]
    · have hxs : ∃ y ∈ xs, y.addr = curr.addr := by
        obtain ⟨y, hy, hya⟩ := h
        rcases List.mem_cons.1 hy with rfl | hy1
        · exact absurd hya h1
        · exact ⟨y, hy1, hya⟩
      cases prev <;> simp only [getActualPositionLoop, h1, if_false] <;> split_ifs
      all_goals first
        | exact ⟨_, rfl⟩
        | exact ih _ _ hxs

/-- C8 (shared first place): in a cohort ordered by the ordering rule, whose
pointers are pairwise different, a finished run receives position 1 from
`getActualPosition` if and only if its step count equals the step count of
the first run of the list. -/
theorem getActualPosition_eq_one_iff (ops : SimulationOps σ) (first : Simulation σ)
    (rest : List (Simulation σ)) (curr : Simulation σ)
    (hord : OrderedByRule ops (first :: rest))
    (hnd : ((first :: rest).map Simulation.addr).Nodup)
    (hmem : curr ∈ first :: rest) (hdone : ops.isDone curr.obj = true) :
    getActualPosition ops (first :: rest) curr = some 1 ↔
      ops.getStepsCount curr.obj = ops.getStepsCount first.obj := by
  by_cases h1 : first.addr = curr.addr
  · have hfc : first = curr := eq_of_addr_eq hnd (List.mem_cons_self _ _) hmem h1
    subst hfc
    simp [getActualPosition, getActualPositionLoop]
  · have hrest : curr ∈ rest := by
      rcases List.mem_cons.1 hmem with h | h
      · exact absurd (congrArg Simulation.addr h).symm h1
      · exact h
    have hrb : rankedBefore ops curr first = false := (List.pairwise_cons.1 hord).1 curr hrest
    simp only [rankedBefore, hdone, Bool.true_and, Bool.or_eq_false_iff, Bool.and_eq_false_iff,
      decide_eq_false_iff_not, Bool.not_eq_false', not_lt] at hrb
    have hle : ops.getStepsCount first.obj ≤ ops.getStepsCount curr.obj := by
      rcases hrb.1 with h | h
      · rw [hrb.2] at h; cases h
      · exact h
    by_cases h2 : ops.getStepsCount first.obj < ops.getStepsCount curr.obj
    · simp only [getActualPosition, getActualPositionLoop, h1, if_false, h2, if_true]
      constructor
      · intro h
        have := getActualPositionLoop_bounds ops curr _ _ _ _ h
        omega
      · intro h; omega
    · simp only [getActualPosition, getActualPositionLoop, h1, if_false, h2]
      constructor
      · intro _; omega
      · intro _; rfl

/-- Two runs that both finish at step 30 as the best runs of a cohort both
receive position 1. -/
theorem getActualPosition_eq_one_iff_witness :
    getActualPosition scriptOps [finishedRun 1 30, finishedRun 2 30] (finishedRun 1 30) = some 1
      ∧ getActualPosition scriptOps [finishedRun 1 30, finishedRun 2 30] (finishedRun 2 30)
          = some 1 :=
  ⟨(getActualPosition_eq_one_iff scriptOps (finishedRun 1 30) [finishedRun 2 30]
      (finishedRun 1 30) (by decide) (by decide) (by decide) (by decide)).2 (by decide),
   (getActualPosition_eq_one_iff scriptOps (finishedRun 1 30) [finishedRun 2 30]
      (finishedRun 2 30) (by decide) (by decide) (by decide) (by decide)).2 (by decide)⟩

/-- C1 (capped dense rank), evaluated: the cohort of finished runs with step
counts 10, 20, 20 is ordered by the ordering rule; the capped dense rank of
its third run is 2, and `getActualPosition` returns 3 for it. -/
theorem getActualPosition_not_denseRank :
    OrderedByRule scriptOps [finishedRun 1 10, finishedRun 2 20, finishedRun 3 20]
      ∧ scriptOps.isDone (finishedRun 3 20).obj = true
      ∧ denseRank scriptOps [finishedRun 1 10, finishedRun 2 20, finishedRun 3 20] 2 = 2
      ∧ getActualPosition scriptOps [finishedRun 1 10, finishedRun 2 20, finishedRun 3 20]
          (finishedRun 3 20) = some 3 := by
  decide

/-- C2 (tie stability), evaluated: in the cohort of finished runs with step
counts 5, 8, 8, ordered by the ordering rule, the two runs with 8 steps
receive positions 2 and 3 from `getActualPosition`. -/
theorem getActualPosition_tie_split :
    OrderedByRule scriptOps [finishedRun 10 5, finishedRun 20 8, finishedRun 30 8]
      ∧ scriptOps.getStepsCount (finishedRun 20 8).obj
          = scriptOps.getStepsCount (finishedRun 30 8).obj
      ∧ getActualPosition scriptOps [finishedRun 10 5, finishedRun 20 8, finishedRun 30 8]
          (finishedRun 20 8) = some 2
      ∧ getActualPosition scriptOps [finishedRun 10 5, finishedRun 20 8, finishedRun 30 8]
          (finishedRun 30 8) = some 3 := by
  decide

end RankingProperties

/-! ## Properties of the scheduler loop -/

section SchedulerProperties

variable {σ : Type}

/-- The winner flag after the inner loop: it was set before, or some run
stepped in this round is done after its step. -/
lemma innerLoop_flag (ops : SimulationOps σ) :
    ∀ (active stopped : List (Simulation σ)) (flag : Bool),
      (innerLoop ops active stopped flag).2.2
        = (flag || active.any (fun s => ops.isDone (ops.step s.obj).2)) := by
  intro active
  induction active with
  | nil => intro stopped flag; simp [innerLoop]
  | cons s rest ih =>
    intro stopped flag
    simp only [innerLoop, List.any_cons]
    split_ifs with h1 h2
    · rw [ih, h2]; simp
    · rw [ih]
      have : ops.isDone (ops.step s.obj).2 = false := by simpa using h2
      rw [this]; simp
    · rw [ih]
      have : ops.isDone (ops.step s.obj).2 = false := by
        cases h : ops.isDone (ops.step s.obj).2
        · rfl
        · simp [h] at h1
      rw [this]; simp

/-- The inner loop at a run that stops in this round. -/
lemma innerLoop_cons_stop (ops : SimulationOps σ) (s : Simulation σ)
    (rest stopped : List (Simulation σ)) (flag : Bool)
    (h : (!(ops.step s.obj).1 || ops.isDone (ops.step s.obj).2) = true) :
    innerLoop ops (s :: rest) stopped flag
      = innerLoop ops rest
          (stopped ++ [{ addr := s.addr, obj := (ops.step s.obj).2,
                         stepCalls := s.stepCalls + 1 }])
          (if ops.isDone (ops.step s.obj).2 then true else flag) := by
  simp only [innerLoop, h, if_true]

/-- The inner loop at a run that stays active. -/
lemma innerLoop_cons_keep (ops : SimulationOps σ) (s : Simulation σ)
    (rest stopped : List (Simulation σ)) (flag : Bool)
    (h : ¬ (!(ops.step s.obj).1 || ops.isDone (ops.step s.obj).2) = true) :
    innerLoop ops (s :: rest) stopped flag
      = ({ addr := s.addr, obj := (ops.step s.obj).2, stepCalls := s.stepCalls + 1 }
            :: (innerLoop ops rest stopped flag).1,
          (innerLoop ops rest stopped flag).2.1, (innerLoop ops rest stopped flag).2.2) := by
  rw [innerLoop, if_neg h]

/-- The inner loop neither loses nor duplicates a pointer. -/
lemma innerLoop_addr_perm (ops : SimulationOps σ) :
    ∀ (active stopped : List (Simulation σ)) (flag : Bool),
      (((innerLoop ops active stopped flag).1
          ++ (innerLoop ops active stopped flag).2.1).map Simulation.addr).Perm
        ((active ++ stopped).map Simulation.addr) := by
  intro active
  induction active with
  | nil => intro stopped flag; simp [innerLoop]
  | cons s rest ih =>
    intro stopped flag
    by_cases h1 : (!(ops.step s.obj).1 || ops.isDone (ops.step s.obj).2) = true
    · rw [innerLoop_cons_stop ops s rest stopped flag h1]
      refine (ih _ _).trans ?_
      simp only [List.map_append, List.map_cons, List.map_nil, List.cons_append]
      have h2 : (List.map Simulation.addr rest
            ++ (List.map Simulation.addr stopped ++ [s.addr])).Perm
          ((List.map Simulation.addr rest ++ List.map Simulation.addr stopped) ++ [s.addr]) := by
        rw [List.append_assoc]
      exact h2.trans (List.perm_append_singleton _ _)
    · rw [innerLoop_cons_keep ops s rest stopped flag h1]
      simp only [List.cons_append, List.map_cons]
      exact (ih _ _).cons _

/-- Within one round a run is stepped once: the active runs all move from
`n` to `n + 1` invocations, the stopped runs stay at `n + 1` or below. -/
lemma innerLoop_stepCalls (ops : SimulationOps σ) (n : Nat) :
    ∀ (active stopped : List (Simulation σ)) (flag : Bool),
      (∀ s ∈ active, s.stepCalls = n) → (∀ s ∈ stopped, s.stepCalls ≤ n + 1) →
      (∀ s ∈ (innerLoop ops active stopped flag).1, s.stepCalls = n + 1)
        ∧ (∀ s ∈ (innerLoop ops active stopped flag).2.1, s.stepCalls ≤ n + 1) := by
  intro active
  induction active with
  | nil => intro stopped flag _ hs; simpa [innerLoop] using hs
  | cons s rest ih =>
    intro stopped flag ha hs
    have hs0 : s.stepCalls = n := ha s (List.mem_cons_self _ _)
    have hrest : ∀ x ∈ rest, x.stepCalls = n := fun x hx => ha x (List.mem_cons_of_mem _ hx)
    by_cases h1 : (!(ops.step s.obj).1 || ops.isDone (ops.step s.obj).2) = true
    · rw [innerLoop_cons_stop ops s rest stopped flag h1]
      apply ih _ _ hrest
      intro x hx
      rcases List.mem_append.1 hx with hx | hx
      · exact hs x hx
      · simp only [List.mem_singleton] at hx
        subst hx; simp [hs0]
    · rw [innerLoop_cons_keep ops s rest stopped flag h1]
      obtain ⟨ih1, ih2⟩ := ih stopped flag hrest hs
      refine ⟨?_, ih2⟩
      intro x hx
      rcases List.mem_cons.1 hx with hx | hx
      · subst hx; simp [hs0]
      · exact ih1 x hx

/-- Every run present after the inner loop is a run that was active, with
exactly one more invocation of `step()`, or a run that was already stopped,
untouched. -/
lemma innerLoop_once (ops : SimulationOps σ) :
    ∀ (active stopped : List (Simulation σ)) (flag : Bool),
      ∀ x ∈ (innerLoop ops active stopped flag).1 ++ (innerLoop ops active stopped flag).2.1,
        (∃ y ∈ active, y.addr = x.addr ∧ x.stepCalls = y.stepCalls + 1) ∨ x ∈ stopped := by
  intro active
  induction active with
  | nil => intro stopped flag x hx; exact Or.inr (by simpa [innerLoop] using hx)
  | cons s rest ih =>
    intro stopped flag x hx
    by_cases h1 : (!(ops.step s.obj).1 || ops.isDone (ops.step s.obj).2) = true
    · rw [innerLoop_cons_stop ops s rest stopped flag h1] at hx
      rcases ih _ _ x hx with ⟨y, hy, hya, hyc⟩ | hst
      · exact Or.inl ⟨y, List.mem_cons_of_mem _ hy, hya, hyc⟩
      · rcases List.mem_append.1 hst with hst | hst
        · exact Or.inr hst
        · simp only [List.mem_singleton] at hst
          subst hst
          exact Or.inl ⟨s, List.mem_cons_self _ _, rfl, rfl⟩
    · rw [innerLoop_cons_keep ops s rest stopped flag h1] at hx
      simp only [List.cons_append, List.mem_cons] at hx
      rcases hx with hx | hx
      · subst hx
        exact Or.inl ⟨s, List.mem_cons_self _ _, rfl, rfl⟩
      · rcases ih _ _ x hx with ⟨y, hy, hya, hyc⟩ | hst
        · exact Or.inl ⟨y, List.mem_cons_of_mem _ hy, hya, hyc⟩
        · exact Or.inr hst

/-- The bounded loop stops after some number `k` of iterations: the condition
held before each of them, and after them it fails or the bound is used up. -/
lemma whileLoop_iterate (ops : SimulationOps σ) (maxSteps maxStepsAfterWinner : Int) :
    ∀ (fuel : Nat) (s : LoopState σ), ∃ k, k ≤ fuel
      ∧ whileLoop ops maxSteps maxStepsAfterWinner fuel s = (loopBody ops)^[k] s
      ∧ (∀ j, j < k → loopCond maxSteps maxStepsAfterWinner ((loopBody ops)^[j] s) = true)
      ∧ (k = fuel ∨ loopCond maxSteps maxStepsAfterWinner ((loopBody ops)^[k] s) = false) := by
  intro fuel
  induction fuel with
  | zero => intro s; exact ⟨0, le_refl _, rfl, fun j hj => absurd hj (Nat.not_lt_zero j), Or.inl rfl⟩
  | succ n ih =>
    intro s
    by_cases hc : loopCond maxSteps maxStepsAfterWinner s = true
    · obtain ⟨k, hk, heq, hbefore, hend⟩ := ih (loopBody ops s)
      refine ⟨k + 1, by omega, ?_, ?_, ?_⟩
      · rw [whileLoop, if_pos hc, heq, Function.iterate_succ_apply]
      · intro j hj
        cases j with
        | zero => exact hc
        | succ i =>
          rw [Function.iterate_succ_apply]
          exact hbefore i (by omega)
      · rcases hend with h | h
        · exact Or.inl (by omega)
        · exact Or.inr (by rw [Function.iterate_succ_apply]; exact h)
    · refine ⟨0, by omega, ?_, fun j hj => absurd hj (Nat.not_lt_zero j), Or.inr ?_⟩
      · rw [whileLoop, if_neg hc]; rfl
      · simpa using hc

/-- One more round is one more application of the loop body. -/
lemma afterRounds_succ (ops : SimulationOps σ) (sims : List (Simulation σ)) (j : Nat) :
    afterRounds ops sims (j + 1) = loopBody ops (afterRounds ops sims j) := by
  simp only [afterRounds, Function.iterate_succ_apply']

/-- The round counter counts the rounds. -/
lemma afterRounds_stepsCount (ops : SimulationOps σ) (sims : List (Simulation σ)) (j : Nat) :
    (afterRounds ops sims j).stepsCount = j := by
  induction j with
  | zero => rfl
  | succ n ih =>
    rw [afterRounds_succ]
    simp only [loopBody, ih]
    push_cast; rfl

/-- The scheduler loop ends by its condition, after some number `k` of rounds
with `k ≤ maxSteps` (0 rounds when `maxSteps` is negative); the condition
held before each of these rounds. -/
lemma schedulerLoop_rounds (ops : SimulationOps σ) (maxSteps maxStepsAfterWinner : Int)
    (sims : List (Simulation σ)) :
    ∃ k : Nat, k ≤ maxSteps.toNat
      ∧ schedulerLoop ops maxSteps maxStepsAfterWinner sims = afterRounds ops sims k
      ∧ (∀ j, j < k → loopCond maxSteps maxStepsAfterWinner (afterRounds ops sims j) = true)
      ∧ loopCond maxSteps maxStepsAfterWinner (afterRounds ops sims k) = false := by
  obtain ⟨k, hk, heq, hbefore, hend⟩ :=
    whileLoop_iterate ops maxSteps maxStepsAfterWinner maxSteps.toNat (initState sims)
  refine ⟨k, hk, heq, hbefore, ?_⟩
  rcases hend with h | h
  · have hsc := afterRounds_stepsCount ops sims k
    simp only [loopCond, hsc, Bool.and_eq_false_iff, decide_eq_false_iff_not]
    left; right
    omega
  · exact h

/-- The scheduler loop leaves by its condition: the bound on the number of
iterations is never what stops it. -/
lemma schedulerLoop_exits (ops : SimulationOps σ) (maxSteps maxStepsAfterWinner : Int)
    (sims : List (Simulation σ)) :
    loopCond maxSteps maxStepsAfterWinner
      (schedulerLoop ops maxSteps maxStepsAfterWinner sims) = false := by
  obtain ⟨k, -, heq, -, hend⟩ := schedulerLoop_rounds ops maxSteps maxStepsAfterWinner sims
  rw [heq]; exact hend

/-- The winner flag after a round. -/
lemma loopBody_flag (ops : SimulationOps σ) (s : LoopState σ) :
    (loopBody ops s).atLeastOneDone = (s.atLeastOneDone || someRunBecomesDone ops s) := by
  simp only [loopBody, someRunBecomesDone, innerLoop_flag]

/-- The counters when the first round in which a run becomes done is round
`r`: before round `r` there is no winner and the post-winner counter is -1,
from round `r` on there is a winner and the counter is the number of rounds
since round `r`. -/
lemma afterRounds_counters (ops : SimulationOps σ) (sims : List (Simulation σ)) (r : Nat)
    (hr1 : 1 ≤ r)
    (hfirst : ∀ i, i < r - 1 → someRunBecomesDone ops (afterRounds ops sims i) = false)
    (hwin : someRunBecomesDone ops (afterRounds ops sims (r - 1)) = true) :
    ∀ j : Nat,
      (j < r → (afterRounds ops sims j).atLeastOneDone = false
          ∧ (afterRounds ops sims j).afterStepsCount = -1)
      ∧ (r ≤ j → (afterRounds ops sims j).atLeastOneDone = true
          ∧ (afterRounds ops sims j).afterStepsCount = (j : Int) - r) := by
  intro j
  induction j with
  | zero =>
    refine ⟨fun _ => ⟨rfl, rfl⟩, fun h => ?_⟩
    omega
  | succ n ih =>
    have hflag := loopBody_flag ops (afterRounds ops sims n)
    have hafter : (loopBody ops (afterRounds ops sims n)).afterStepsCount
        = if (loopBody ops (afterRounds ops sims n)).atLeastOneDone
          then (afterRounds ops sims n).afterStepsCount + 1
          else (afterRounds ops sims n).afterStepsCount := rfl
    rw [afterRounds_succ]
    constructor
    · intro hlt
      obtain ⟨hf, ha⟩ := ih.1 (by omega)
      have hb := hfirst n (by omega)
      rw [hf, hb] at hflag
      rw [hafter, hflag]
      exact ⟨rfl, ha⟩
    · intro hge
      by_cases hn : n + 1 = r
      · obtain ⟨hf, ha⟩ := ih.1 (by omega)
        have hb : someRunBecomesDone ops (afterRounds ops sims n) = true := by
          have : r - 1 = n := by omega
          rw [← this]; exact hwin
        rw [hf, hb] at hflag
        rw [hafter, hflag]
        refine ⟨rfl, ?_⟩
        simp only [Bool.false_or, if_true, ha]
        push_cast [← hn]; omega
      · obtain ⟨hf, ha⟩ := ih.2 (by omega)
        rw [hf] at hflag
        rw [hafter, hflag]
        refine ⟨rfl, ?_⟩
        simp only [Bool.true_or, if_true, ha]
        push_cast; omega

/-- C5 (sudden-death cutoff): with `maxStepsAfterWinner = M ≥ 0`, when the
first round (counted from 1) in which some run becomes done is round
`r ≤ maxSteps` and some run is still active when the scheduler loop ends, the
loop ends with elapsed round count `min(maxSteps, r + M)`. -/
theorem sudden_death_cutoff (ops : SimulationOps σ) (sims : List (Simulation σ))
    (maxSteps M : Int) (r : Nat) (hM : 0 ≤ M) (hr1 : 1 ≤ r) (hr : (r : Int) ≤ maxSteps)
    (hfirst : ∀ i, i < r - 1 → someRunBecomesDone ops (afterRounds ops sims i) = false)
    (hwin : someRunBecomesDone ops (afterRounds ops sims (r - 1)) = true)
    (hactive : (schedulerLoop ops maxSteps M sims).simulations ≠ []) :
    (schedulerLoop ops maxSteps M sims).stepsCount = min maxSteps (r + M) := by
  obtain ⟨k, -, heq, hbefore, hend⟩ := schedulerLoop_rounds ops maxSteps M sims
  rw [heq] at hactive ⊢
  rw [afterRounds_stepsCount]
  have hlen : 0 < (afterRounds ops sims k).simulations.length :=
    List.length_pos.2 hactive
  have hcnt := afterRounds_counters ops sims r hr1 hfirst hwin
  have hsk := afterRounds_stepsCount ops sims k
  by_cases hkr : k < r
  · obtain ⟨hf, -⟩ := (hcnt k).1 hkr
    simp only [loopCond, hsk, hf, hlen, gt_iff_lt, decide_True, Bool.true_and, Bool.false_eq_true,
      if_false, Bool.and_true, decide_eq_false_iff_not] at hend
    omega
  · obtain ⟨hf, ha⟩ := (hcnt k).2 (by omega)
    simp only [loopCond, hsk, hf, ha, hlen, gt_iff_lt, decide_True, Bool.true_and, if_true,
      Bool.and_eq_false_iff, decide_eq_false_iff_not] at hend
    have hprev := hbefore (k - 1) (by omega)
    have hsp := afterRounds_stepsCount ops sims (k - 1)
    have hupper : (k : Int) ≤ maxSteps ∧ (k : Int) ≤ r + M := by
      by_cases hk1 : k - 1 < r
      · have : k = r := by omega
        subst this
        exact ⟨hr, by omega⟩
      · obtain ⟨hf1, ha1⟩ := (hcnt (k - 1)).2 (by omega)
        simp only [loopCond, hsp, hf1, ha1, if_true, Bool.and_eq_true, decide_eq_true_eq] at hprev
        obtain ⟨⟨-, h1⟩, h2⟩ := hprev
        have hk0 : ((k - 1 : Nat) : Int) = (k : Int) - 1 := by omega
        rw [hk0] at h1 h2
        omega
    omega

/-- The scenario of the specification: a winner at round 40 with
`maxStepsAfterWinner = 5` and `maxSteps = 100`, and a second run that never
finishes, stop the cohort at round 45. -/
theorem sudden_death_cutoff_witness :
    (schedulerLoop scriptOps 100 5 [freshRun 1 40, freshRun 2 (-1)]).stepsCount = 45 :=
  sudden_death_cutoff scriptOps [freshRun 1 40, freshRun 2 (-1)] 100 5 40
    (by decide) (by decide) (by decide) (by decide) (by decide) (by decide)

/-- The invocation counts after `j` rounds on a cohort of fresh runs: `j`
for every active run, at most `j` for every stopped run. -/
lemma afterRounds_stepCalls (ops : SimulationOps σ) (sims : List (Simulation σ))
    (hfresh : ∀ s ∈ sims, s.stepCalls = 0) :
    ∀ j : Nat, (∀ s ∈ (afterRounds ops sims j).simulations, s.stepCalls = j)
      ∧ (∀ s ∈ (afterRounds ops sims j).tempSoppedSimulatios, s.stepCalls ≤ j) := by
  intro j
  induction j with
  | zero =>
    refine ⟨hfresh, ?_⟩
    intro s hs
    cases hs
  | succ n ih =>
    rw [afterRounds_succ]
    exact innerLoop_stepCalls ops n _ _ _ ih.1 (fun s hs => Nat.le_succ_of_le (ih.2 s hs))

/-- After any number of rounds the active and the stopped runs together hold
the pointers of the cohort, each once. -/
lemma afterRounds_addr_perm (ops : SimulationOps σ) (sims : List (Simulation σ)) :
    ∀ j : Nat, ((merged (afterRounds ops sims j)).map Simulation.addr).Perm
      (sims.map Simulation.addr) := by
  intro j
  induction j with
  | zero => simp [afterRounds, initState, merged]
  | succ n ih =>
    rw [afterRounds_succ]
    exact (innerLoop_addr_perm ops _ _ _).trans ih

/-- C10 (step-budget accounting): for `maxSteps ≥ 0` and a cohort of fresh
runs, the elapsed round count at the end of the scheduler loop is at most
`maxSteps`; every run still active has had `step()` invoked exactly that many
times and every stopped run at most that many times; and a round invokes
`step()` once on every active run and never on a stopped run. -/
theorem step_budget_accounting (ops : SimulationOps σ) (sims : List (Simulation σ))
    (maxSteps M : Int) (h0 : 0 ≤ maxSteps) (hfresh : ∀ s ∈ sims, s.stepCalls = 0) :
    (schedulerLoop ops maxSteps M sims).stepsCount ≤ maxSteps
      ∧ (∀ s ∈ (schedulerLoop ops maxSteps M sims).simulations,
          (s.stepCalls : Int) = (schedulerLoop ops maxSteps M sims).stepsCount)
      ∧ (∀ s ∈ (schedulerLoop ops maxSteps M sims).tempSoppedSimulatios,
          (s.stepCalls : Int) ≤ (schedulerLoop ops maxSteps M sims).stepsCount)
      ∧ (∀ st : LoopState σ, ∀ x ∈ merged (loopBody ops st),
          (∃ y ∈ st.simulations, y.addr = x.addr ∧ x.stepCalls = y.stepCalls + 1)
            ∨ x ∈ st.tempSoppedSimulatios) := by
  obtain ⟨k, hk, heq, -, -⟩ := schedulerLoop_rounds ops maxSteps M sims
  rw [heq, afterRounds_stepsCount]
  obtain ⟨hact, hstop⟩ := afterRounds_stepCalls ops sims hfresh k
  refine ⟨by omega, ?_, ?_, ?_⟩
  · intro s hs
    exact_mod_cast hact s hs
  · intro s hs
    exact_mod_cast hstop s hs
  · intro st x hx
    exact innerLoop_once ops _ _ _ x hx

/-- The accounting on a cohort of a run that finishes at step 2 and a run
that never finishes, with a budget of 5 rounds and one round after the
winner. -/
theorem step_budget_accounting_witness :
    (schedulerLoop scriptOps 5 1 [freshRun 1 2, freshRun 2 (-1)]).stepsCount ≤ 5
      ∧ (∀ s ∈ (schedulerLoop scriptOps 5 1 [freshRun 1 2, freshRun 2 (-1)]).simulations,
          (s.stepCalls : Int)
            = (schedulerLoop scriptOps 5 1 [freshRun 1 2, freshRun 2 (-1)]).stepsCount)
      ∧ (∀ s ∈ (schedulerLoop scriptOps 5 1
            [freshRun 1 2, freshRun 2 (-1)]).tempSoppedSimulatios,
          (s.stepCalls : Int)
            ≤ (schedulerLoop scriptOps 5 1 [freshRun 1 2, freshRun 2 (-1)]).stepsCount)
      ∧ (∀ st : LoopState Script, ∀ x ∈ merged (loopBody scriptOps st),
          (∃ y ∈ st.simulations, y.addr = x.addr ∧ x.stepCalls = y.stepCalls + 1)
            ∨ x ∈ st.tempSoppedSimulatios) :=
  step_budget_accounting scriptOps [freshRun 1 2, freshRun 2 (-1)] 5 1 (by decide) (by decide)

end SchedulerProperties

/-! ## Properties of `score` and `simulate` -/

section ScoringProperties

variable {σ α η : Type}

/-- The position computation returns for every run of the vector. -/
lemma positionInCompetition_returns (ops : SimulationOps σ) (all : List (Simulation σ))
    (c : Simulation σ) (hc : c ∈ all) : ∃ pos, positionInCompetition ops all c = some pos := by
  unfold positionInCompetition
  split_ifs
  · exact getActualPositionLoop_returns ops c all none 1 ⟨c, hc, rfl⟩
  · exact ⟨10, rfl⟩

/-- The loop of `score` on the runs `rest`, the first of them at distance
`index` from the start of the vector: when `_algos` is long enough the loop
returns; the entries of `_algos` outside `index .. index + rest.length - 1`
are unchanged, and the entry at `i` inside that range has the score of the run
`rest[i - index]` appended to its history. -/
lemma scoreLoop_spec (ops : SimulationOps σ) (n winner : Int) (all : List (Simulation σ)) :
    ∀ (rest : List (Simulation σ)) (index : Nat) (algos : AlgoVector α),
      (∀ c ∈ rest, c ∈ all) → index + rest.length ≤ algos.length →
      ∃ algos1, scoreLoop ops n winner all index rest algos = some algos1
        ∧ algos1.length = algos.length
        ∧ ∀ i a, algos[i]? = some a →
            ((i < index ∨ index + rest.length ≤ i) → algos1[i]? = some a)
            ∧ (index ≤ i → i < index + rest.length →
                ∃ cur pos, rest[i - index]? = some cur
                  ∧ positionInCompetition ops all cur = some pos
                  ∧ algos1[i]? = some (a.1, a.2 ++ [ops.score cur.obj pos winner n])) := by
  intro rest
  induction rest with
  | nil =>
    intro index algos _ _
    refine ⟨algos, rfl, rfl, ?_⟩
    intro i a ha
    refine ⟨fun _ => ha, fun h1 h2 => ?_⟩
    simp only [List.length_nil, Nat.add_zero] at h2
    omega
  | cons c rest ih =>
    intro index algos hmem hlen
    simp only [List.length_cons] at hlen
    obtain ⟨pos, hpos⟩ := positionInCompetition_returns ops all c (hmem c (List.mem_cons_self _ _))
    have hidx : index < algos.length := by omega
    have hpair : algos[index]? = some algos[index] := List.getElem?_eq_getElem hidx
    obtain ⟨algos1, hrun, hlen1, hspec⟩ := ih (index + 1)
      (algos.set index
        (algos[index].1, algos[index].2 ++ [ops.score c.obj pos winner n]))
      (fun x hx => hmem x (List.mem_cons_of_mem _ hx))
      (by rw [List.length_set]; omega)
    refine ⟨algos1, ?_, ?_, ?_⟩
    · rw [scoreLoop, hpos, hpair]
      exact hrun
    · rw [hlen1, List.length_set]
    · intro i a ha
      by_cases hi : i = index
      · subst hi
        have ha1 : a = algos[i] := by
          rw [hpair] at ha
          exact (Option.some.inj ha).symm
        have hset : (algos.set i
            (algos[i].1, algos[i].2 ++ [ops.score c.obj pos winner n]))[i]?
            = some (algos[i].1, algos[i].2 ++ [ops.score c.obj pos winner n]) :=
          List.getElem?_set_self hidx
        have hkeep := (hspec i _ hset).1 (Or.inl (Nat.lt_succ_self i))
        refine ⟨fun h => ?_, fun _ _ => ?_⟩
        · simp only [List.length_cons] at h
          omega
        · refine ⟨c, pos, ?_, hpos, ?_⟩
          · simp
          · rw [ha1]; exact hkeep
      · have hset : (algos.set index
            (algos[index].1, algos[index].2 ++ [ops.score c.obj pos winner n]))[i]?
            = some a := by
          rw [List.getElem?_set_ne (Ne.symm hi)]
          exact ha
        obtain ⟨h1, h2⟩ := hspec i a hset
        refine ⟨fun h => h1 ?_, fun hge hlt => ?_⟩
        · simp only [List.length_cons] at h
          omega
        · simp only [List.length_cons] at hlt
          obtain ⟨cur, p, hcur, hp, hres⟩ := h2 (by omega) (by omega)
          refine ⟨cur, p, ?_, hp, hres⟩
          have hsub : i - index = (i - (index + 1)) + 1 := by omega
          rw [hsub, List.getElem?_cons_succ]
          exact hcur

/-- The sorted vector holds the runs of the cohort. -/
lemma sortByAddress_perm (l : List (Simulation σ)) : (sortByAddress l).Perm l :=
  List.perm_insertionSort _ l

/-- `score` on a non-empty cohort with as many runs as `_algos` has entries
returns, and appends to the history of the entry at `i` the score of the run
at `i` in the sorted vector. -/
lemma score_spec (ops : SimulationOps σ) (algos : AlgoVector α) (n : Int)
    (cohort : List (Simulation σ)) (hne : algos ≠ []) (hlen : cohort.length = algos.length) :
    ∃ (algos1 : AlgoVector α) (winner : Int), score ops algos n cohort = some algos1
      ∧ winnerNumSteps ops n (sortByAddress cohort) = some winner
      ∧ algos1.length = algos.length
      ∧ ∀ (i : Nat) (a : α × List Int), algos[i]? = some a →
          ∃ cur pos, (sortByAddress cohort)[i]? = some cur
            ∧ positionInCompetition ops (sortByAddress cohort) cur = some pos
            ∧ algos1[i]? = some (a.1, a.2 ++ [ops.score cur.obj pos winner n]) := by
  have hslen : (sortByAddress cohort).length = algos.length := by
    rw [(sortByAddress_perm cohort).length_eq, hlen]
  have hpos : 0 < algos.length := List.length_pos.2 hne
  obtain ⟨winner, hwin⟩ : ∃ w, winnerNumSteps ops n (sortByAddress cohort) = some w := by
    cases hs : sortByAddress cohort with
    | nil => rw [hs] at hslen; simp at hslen; omega
    | cons x xs => exact ⟨_, rfl⟩
  obtain ⟨algos1, hrun, hlen1, hspec⟩ := scoreLoop_spec ops n winner (sortByAddress cohort)
    (sortByAddress cohort) 0 algos (fun c hc => hc) (by omega)
  refine ⟨algos1, winner, ?_, hwin, hlen1, ?_⟩
  · simp only [score, hwin]
    exact hrun
  · intro i a ha
    have hi : i < algos.length := (List.getElem?_eq_some.1 ha).1
    obtain ⟨cur, pos, hcur, hp, hres⟩ := (hspec i a ha).2 (Nat.zero_le _) (by omega)
    exact ⟨cur, pos, by simpa using hcur, hp, hres⟩

/-- One run is created per entry of `_algos`. -/
lemma instantiate_length (env : HouseEnv α η σ) (house : η) :
    ∀ (algos : AlgoVector α) (i : Nat), (instantiate env house i algos).length = algos.length := by
  intro algos
  induction algos with
  | nil => intro i; rfl
  | cons a rest ih => intro i; simp only [instantiate, List.length_cons, ih]

/-- The scheduler loop neither loses nor duplicates a pointer of the cohort. -/
lemma schedulerLoop_addr_perm (ops : SimulationOps σ) (maxSteps M : Int)
    (sims : List (Simulation σ)) :
    ((merged (schedulerLoop ops maxSteps M sims)).map Simulation.addr).Perm
      (sims.map Simulation.addr) := by
  obtain ⟨k, -, heq, -, -⟩ := schedulerLoop_rounds ops maxSteps M sims
  rw [heq]
  exact afterRounds_addr_perm ops sims k

/-- The early return of line 101 agrees with a loop over no house. -/
lemma simulate_eq_simulateHouses (env : HouseEnv α η σ) (ops : SimulationOps σ) (M : Int)
    (algos : AlgoVector α) (houses : List η) :
    simulate env ops M algos houses = simulateHouses env ops M algos houses := by
  cases houses with
  | nil => rfl
  | cons h hs => simp [simulate]

/-- Processing one house returns and appends one score to every history. -/
lemma simulateHouse_spec (env : HouseEnv α η σ) (ops : SimulationOps σ) (M : Int)
    (algos : AlgoVector α) (house : η) (hne : algos ≠ []) :
    ∃ algos1 : AlgoVector α, simulateHouse env ops M algos house = some algos1
      ∧ algos1.length = algos.length
      ∧ ∀ (i : Nat) (a : α × List Int), algos[i]? = some a →
          ∃ x : Int, algos1[i]? = some (a.1, a.2 ++ [x]) := by
  have hlen : (merged (schedulerLoop ops (env.getMaxSteps house) M
      (instantiate env house 0 algos))).length = algos.length := by
    have h := (schedulerLoop_addr_perm ops (env.getMaxSteps house) M
      (instantiate env house 0 algos)).length_eq
    simpa [instantiate_length] using h
  obtain ⟨algos1, winner, hrun, -, hlen1, hspec⟩ := score_spec ops algos
    (schedulerLoop ops (env.getMaxSteps house) M (instantiate env house 0 algos)).stepsCount
    (merged (schedulerLoop ops (env.getMaxSteps house) M (instantiate env house 0 algos)))
    hne hlen
  refine ⟨algos1, hrun, hlen1, ?_⟩
  intro i a ha
  obtain ⟨cur, pos, -, -, hres⟩ := hspec i a ha
  exact ⟨_, hres⟩

/-- Processing the houses in order returns, and the history of every
algorithm grows by one entry per house: after the first `j` houses it is the
old history followed by the first `j` of the new entries. -/
lemma simulateHouses_spec (env : HouseEnv α η σ) (ops : SimulationOps σ) (M : Int) :
    ∀ (houses : List η) (algos : AlgoVector α), algos ≠ [] →
      ∃ algos1 : AlgoVector α, simulateHouses env ops M algos houses = some algos1
        ∧ algos1.length = algos.length
        ∧ ∀ (i : Nat) (a : α × List Int), algos[i]? = some a →
            ∃ entries : List Int, entries.length = houses.length
              ∧ ∀ j, j ≤ houses.length →
                  ∃ algosj : AlgoVector α,
                    simulateHouses env ops M algos (houses.take j) = some algosj
                      ∧ algosj[i]? = some (a.1, a.2 ++ entries.take j) := by
  intro houses
  induction houses with
  | nil =>
    intro algos _
    refine ⟨algos, rfl, rfl, ?_⟩
    intro i a ha
    refine ⟨[], rfl, ?_⟩
    intro j _
    exact ⟨algos, by simp [simulateHouses], by simpa using ha⟩
  | cons h hs ih =>
    intro algos hne
    obtain ⟨algos2, hrun2, hlen2, hspec2⟩ := simulateHouse_spec env ops M algos h hne
    have hne2 : algos2 ≠ [] := by
      intro h0
      rw [h0] at hlen2
      exact hne (List.length_eq_zero.1 hlen2.symm)
    obtain ⟨algos1, hrun1, hlen1, hspec1⟩ := ih algos2 hne2
    refine ⟨algos1, ?_, by rw [hlen1, hlen2], ?_⟩
    · simp only [simulateHouses, hrun2]
      exact hrun1
    · intro i a ha
      obtain ⟨x, hx⟩ := hspec2 i a ha
      obtain ⟨entries, hel, hpre⟩ := hspec1 i _ hx
      refine ⟨x :: entries, by simp [hel], ?_⟩
      intro j hj
      cases j with
      | zero => exact ⟨algos, by simp [simulateHouses], by simpa using ha⟩
      | succ j1 =>
        simp only [List.length_cons] at hj
        obtain ⟨algosj, hrunj, hresj⟩ := hpre j1 (by omega)
        refine ⟨algosj, ?_, ?_⟩
        · simp only [List.take_succ_cons, simulateHouses, hrun2]
          exact hrunj
        · rw [hresj]
          simp

/-- C9 (one score per algorithm per house): the scheduler loop neither loses
nor duplicates runs (the pointers of the merged list of active and stopped
runs are a permutation of those of the cohort); and `simulate` on `k` houses
returns with the history of every algorithm grown by exactly `k` entries, one
per house in the order of processing (after the first `j` houses the history
is the old one followed by the first `j` of these entries). -/
theorem one_score_per_house (env : HouseEnv α η σ) (ops : SimulationOps σ) (M : Int)
    (algos : AlgoVector α) (houses : List η) (hne : algos ≠ []) :
    (∀ (maxSteps : Int) (sims : List (Simulation σ)),
        ((merged (schedulerLoop ops maxSteps M sims)).map Simulation.addr).Perm
          (sims.map Simulation.addr))
      ∧ ∃ algos1 : AlgoVector α, simulate env ops M algos houses = some algos1
          ∧ algos1.length = algos.length
          ∧ ∀ (i : Nat) (a : α × List Int), algos[i]? = some a →
              ∃ entries : List Int, entries.length = houses.length
                ∧ algos1[i]? = some (a.1, a.2 ++ entries)
                ∧ ∀ j, j ≤ houses.length →
                    ∃ algosj : AlgoVector α,
                      simulate env ops M algos (houses.take j) = some algosj
                        ∧ algosj[i]? = some (a.1, a.2 ++ entries.take j) := by
  refine ⟨fun maxSteps sims => schedulerLoop_addr_perm ops maxSteps M sims, ?_⟩
  obtain ⟨algos1, hrun, hlen, hspec⟩ := simulateHouses_spec env ops M houses algos hne
  refine ⟨algos1, by rw [simulate_eq_simulateHouses]; exact hrun, hlen, ?_⟩
  intro i a ha
  obtain ⟨entries, hel, hpre⟩ := hspec i a ha
  refine ⟨entries, hel, ?_, ?_⟩
  · obtain ⟨algosj, hrunj, hresj⟩ := hpre houses.length (le_refl _)
    rw [List.take_length] at hrunj
    rw [hrun] at hrunj
    cases hrunj
    rw [hresj, ← hel, List.take_length]
  · intro j hj
    obtain ⟨algosj, hrunj, hresj⟩ := hpre j hj
    exact ⟨algosj, by rw [simulate_eq_simulateHouses]; exact hrunj, hresj⟩

/-- Two algorithms on two houses: both histories grow by two entries. -/
theorem one_score_per_house_witness :
    ∃ algos1 : AlgoVector Int,
      simulate scriptEnv scriptOps 1 [(-1, [7]), (2, [])]
          [((4 : Int), [100, 200]), ((3 : Int), [100, 200])] = some algos1
        ∧ algos1.length = 2
        ∧ ∀ (i : Nat) (a : Int × List Int),
            ([(-1, [7]), (2, [])] : AlgoVector Int)[i]? = some a →
              ∃ entries : List Int, entries.length = 2
                ∧ algos1[i]? = some (a.1, a.2 ++ entries)
                ∧ ∀ j, j ≤ 2 →
                    ∃ algosj : AlgoVector Int,
                      simulate scriptEnv scriptOps 1 [(-1, [7]), (2, [])]
                          (([((4 : Int), [100, 200]), ((3 : Int), [100, 200])]
                            : List (Int × List Nat)).take j) = some algosj
                        ∧ algosj[i]? = some (a.1, a.2 ++ entries.take j) :=
  (one_score_per_house scriptEnv scriptOps 1 [(-1, [7]), (2, [])]
    [((4 : Int), [100, 200]), ((3 : Int), [100, 200])] (by decide)).2

/-- C3 (cohort ordered after the sort), evaluated: two algorithms on a house
with budget 3 and `maxStepsAfterWinner = 0`; the first never finishes and its
run is at address 100, the second finishes at step 1 and its run is at
address 200.  The vector sorted at line 213 has the unfinished run before the
finished one, so it is not ordered by the ordering rule. -/
theorem sortByAddress_not_ordered :
    sortByAddress (merged (schedulerLoop scriptOps 3 0
        (instantiate scriptEnv ((3 : Int), [100, 200]) 0 [(-1, []), (1, [])])))
      = [{ addr := 100, obj := { finishAt := -1, failAt := -1, totalSteps := 1 },
           stepCalls := 1 },
         { addr := 200, obj := { finishAt := 1, failAt := -1, totalSteps := 1 },
           stepCalls := 1 }]
      ∧ ¬ OrderedByRule scriptOps (sortByAddress (merged (schedulerLoop scriptOps 3 0
          (instantiate scriptEnv ((3 : Int), [100, 200]) 0 [(-1, []), (1, [])])))) := by
  decide

/-- C6 (winner reference), evaluated: two algorithms on a house with budget
10 and `maxStepsAfterWinner = 3`; the first never finishes and its run is at
address 100, the second finishes at step 2 and its run is at address 200.
The loop ends after 5 rounds, the only finished run has 2 steps, and the
winner reference computed at lines 213-216 is 5. -/
theorem winnerNumSteps_not_best :
    (schedulerLoop scriptOps 10 3
        (instantiate scriptEnv ((10 : Int), [100, 200]) 0 [(-1, []), (2, [])])).stepsCount = 5
      ∧ ((merged (schedulerLoop scriptOps 10 3
            (instantiate scriptEnv ((10 : Int), [100, 200]) 0 [(-1, []), (2, [])]))).filter
          (fun s => scriptOps.isDone s.obj)).map (fun s => scriptOps.getStepsCount s.obj) = [2]
      ∧ winnerNumSteps scriptOps 5 (sortByAddress (merged (schedulerLoop scriptOps 10 3
          (instantiate scriptEnv ((10 : Int), [100, 200]) 0 [(-1, []), (2, [])])))) = some 5 := by
  decide

/-- C4 (score attribution), evaluated: two algorithms on a house with budget
3 and `maxStepsAfterWinner = 0`, the score of a run being its position; the
first algorithm never finishes and its run is at address 200, the second
finishes at step 1 and its run is at address 100.  The run at address 200 is
given position 10 and the run at address 100 position 1, and `simulate`
appends 1 to the history of the first algorithm and 10 to that of the
second. -/
theorem score_misattributed :
    (instantiate scriptEnv ((3 : Int), [200, 100]) 0 [(-1, []), (1, [])]).map
        (fun s => (s.addr, s.obj.finishAt)) = [(200, -1), (100, 1)]
      ∧ (sortByAddress (merged (schedulerLoop scriptOps 3 0
            (instantiate scriptEnv ((3 : Int), [200, 100]) 0 [(-1, []), (1, [])])))).map
          (fun s => (s.addr, positionInCompetition scriptOps
            (sortByAddress (merged (schedulerLoop scriptOps 3 0
              (instantiate scriptEnv ((3 : Int), [200, 100]) 0 [(-1, []), (1, [])])))) s))
        = [(100, some 1), (200, some 10)]
      ∧ simulate scriptEnv scriptOps 0 [(-1, []), (1, [])] [((3 : Int), [200, 100])]
        = some [(-1, [1]), (1, [10])] := by
  decide

end ScoringProperties

/-! ## Properties of the loader and of the constructor -/

section LoadingProperties

variable {H φ α η σ : Type}

/-- C11 (plugin load classification): an `AlgorithmLoader` is valid if and
only if the module opens and `getAbstractAlgorithmPointer` resolves to a
non-null factory; when the module does not open the error line is the file
name followed by ": file cannot be loaded or is not a valid .so", when it
opens without the entry point the error line is the file name followed by
": valid .so file but no algorithm was registered after loading it", and in
both failure cases the global registry is unchanged. -/
theorem algorithmLoader_classification (os : DynamicLoader H φ) (globalFactory : Registry φ)
    (path : String) :
    ((AlgorithmLoader.new os globalFactory path).1._isValid = true ↔
        ∃ dlib f, os.dlopen path = some dlib
          ∧ os.dlsym dlib "getAbstractAlgorithmPointer" = some f)
      ∧ (os.dlopen path = none →
          (AlgorithmLoader.new os globalFactory path).1._errorLine
              = os.filename path ++ ": file cannot be loaded or is not a valid .so"
            ∧ (AlgorithmLoader.new os globalFactory path).2 = globalFactory)
      ∧ (∀ dlib, os.dlopen path = some dlib →
          os.dlsym dlib "getAbstractAlgorithmPointer" = none →
          (AlgorithmLoader.new os globalFactory path).1._errorLine
              = os.filename path
                ++ ": valid .so file but no algorithm was registered after loading it"
            ∧ (AlgorithmLoader.new os globalFactory path).2 = globalFactory) := by
  cases hopen : os.dlopen path with
  | none =>
    refine ⟨?_, ?_, ?_⟩
    · simp [AlgorithmLoader.new, hopen]
    · intro _; simp [AlgorithmLoader.new, hopen]
    · intro dlib h; cases h
  | some d =>
    cases hsym : os.dlsym d "getAbstractAlgorithmPointer" with
    | none =>
      refine ⟨?_, ?_, ?_⟩
      · simp [AlgorithmLoader.new, hopen, hsym]
      · intro h; cases h
      · intro dlib h _
        simp [AlgorithmLoader.new, hopen, hsym]
    | some f =>
      refine ⟨?_, ?_, ?_⟩
      · simp [AlgorithmLoader.new, hopen, hsym]
      · intro h; cases h
      · intro dlib h h2
        cases h
        rw [hsym] at h2
        cases h2

/-- C14 (last registration wins): after an `AlgorithmLoader` succeeds for a
module whose file stem is `name`, the global registry maps `name` to the
factory of the module, whatever was registered under `name` before, and its
entries for every other name are unchanged. -/
theorem last_registration_wins (os : DynamicLoader H φ) (globalFactory : Registry φ)
    (path : String) (dlib : H) (f : φ) (hopen : os.dlopen path = some dlib)
    (hsym : os.dlsym dlib "getAbstractAlgorithmPointer" = some f) :
    (AlgorithmLoader.new os globalFactory path).1._isValid = true
      ∧ (AlgorithmLoader.new os globalFactory path).1._algoName = os.stem path
      ∧ (AlgorithmLoader.new os globalFactory path).2 (os.stem path) = some f
      ∧ ∀ key, key ≠ os.stem path →
          (AlgorithmLoader.new os globalFactory path).2 key = globalFactory key := by
  refine ⟨?_, ?_, ?_, ?_⟩
  · simp [AlgorithmLoader.new, hopen, hsym]
  · simp [AlgorithmLoader.new, hopen, hsym]
  · simp [AlgorithmLoader.new, hopen, hsym, Registry.assign]
  · intro key hkey
    simp [AlgorithmLoader.new, hopen, hsym, Registry.assign, hkey]

/-- Loading `good_.so`, which exports factory 7, into a registry that has
factory 3 under `good_` and factory 5 under `other`. -/
theorem last_registration_wins_witness :
    (AlgorithmLoader.new testLoader
        (fun key => if key = "good_" then some 3 else if key = "other" then some 5 else none)
        "good_.so").1._isValid = true
      ∧ (AlgorithmLoader.new testLoader
          (fun key => if key = "good_" then some 3 else if key = "other" then some 5 else none)
          "good_.so").1._algoName = "good_"
      ∧ (AlgorithmLoader.new testLoader
          (fun key => if key = "good_" then some 3 else if key = "other" then some 5 else none)
          "good_.so").2 "good_" = some 7
      ∧ ∀ key, key ≠ "good_" →
          (AlgorithmLoader.new testLoader
            (fun key => if key = "good_" then some 3 else if key = "other" then some 5 else none)
            "good_.so").2 key
          = (fun key => if key = "good_" then some 3 else if key = "other" then some 5
              else none) key :=
  last_registration_wins testLoader
    (fun key => if key = "good_" then some 3 else if key = "other" then some 5 else none)
    "good_.so" 1 7 (by decide) (by decide)

/-- The loop over the algorithms keeps the valid ones, each with an empty
history, and collects the error lines of the others. -/
lemma algoLoop_eq (le : LoadEnv α η) :
    ∀ (l : List α) (acc : AlgoVector α × List String),
      algoLoop le l acc
        = (acc.1 ++ (l.filter le.algoIsValid).map (fun a => (a, [])),
           acc.2 ++ (l.filter (fun a => !le.algoIsValid a)).map le.algoErrorLine) := by
  intro l
  induction l with
  | nil => intro acc; simp [algoLoop]
  | cons a rest ih =>
    intro acc
    by_cases h : le.algoIsValid a = true
    · simp [algoLoop, h, ih]
    · simp [algoLoop, h, ih]

/-- The loop over the houses keeps the valid ones and collects the error
lines of the others. -/
lemma houseLoop_eq (le : LoadEnv α η) :
    ∀ (l : List η) (acc : List η × List String),
      houseLoop le l acc
        = (acc.1 ++ l.filter le.houseIsValid,
           acc.2 ++ (l.filter (fun h => !le.houseIsValid h)).map le.houseErrorLine) := by
  intro l
  induction l with
  | nil => intro acc; simp [houseLoop]
  | cons a rest ih =>
    intro acc
    by_cases h : le.houseIsValid a = true
    · simp [houseLoop, h, ih]
    · simp [houseLoop, h, ih]

/-- The last loop of the constructor appends the algorithm errors. -/
lemma concatErrors_eq : ∀ (es errors : List String), concatErrors es errors = errors ++ es := by
  intro es
  induction es with
  | nil => intro errors; simp [concatErrors]
  | cons e rest ih => intro errors; simp [concatErrors, ih]

/-- The constructor, case by case: nothing valid to run on one side or the
other leaves `_houses` empty and `_successful` false; otherwise the members
are the valid algorithms, the valid houses and the error lines, houses
first. -/
lemma Simulator_new_cases (le : LoadEnv α η) (allAlgos : List α) (allHouses : List η) :
    ((allAlgos.filter le.algoIsValid = [] ∨ allHouses.filter le.houseIsValid = [])
        ∧ (Simulator.new le allAlgos allHouses)._successful = false
        ∧ (Simulator.new le allAlgos allHouses)._houses = [])
      ∨ (allAlgos.filter le.algoIsValid ≠ [] ∧ allHouses.filter le.houseIsValid ≠ []
        ∧ (Simulator.new le allAlgos allHouses)._successful = true
        ∧ (Simulator.new le allAlgos allHouses)._algos
            = (allAlgos.filter le.algoIsValid).map (fun a => (a, []))
        ∧ (Simulator.new le allAlgos allHouses)._houses = allHouses.filter le.houseIsValid
        ∧ (Simulator.new le allAlgos allHouses)._errors
            = (allHouses.filter (fun h => !le.houseIsValid h)).map le.houseErrorLine
              ++ (allAlgos.filter (fun a => !le.algoIsValid a)).map le.algoErrorLine) := by
  by_cases h1 : allAlgos.length = 0
  · left
    have h1n : allAlgos = [] := List.length_eq_zero.1 h1
    subst h1n
    simp [Simulator.new, Simulator.initial]
  · by_cases h2 : allAlgos.filter le.algoIsValid = []
    · left
      simp [Simulator.new, Simulator.initial, h1, algoLoop_eq, h2]
    · by_cases h3 : allHouses.length = 0
      · left
        have h3n : allHouses = [] := List.length_eq_zero.1 h3
        subst h3n
        simp [Simulator.new, Simulator.initial, h1, algoLoop_eq, h2]
      · by_cases h4 : allHouses.filter le.houseIsValid = []
        · left
          simp [Simulator.new, Simulator.initial, h1, algoLoop_eq, h2, h3, houseLoop_eq, h4]
        · right
          simp [Simulator.new, Simulator.initial, h1, algoLoop_eq, h2, h3, houseLoop_eq, h4,
            concatErrors_eq]

/-- C12 (construction succeeds exactly with something to run): after the
constructor `_successful` is true if and only if some discovered algorithm is
valid and some discovered house is valid; in that case `_algos` holds the
valid algorithms in discovery order, each with an empty score history,
`_houses` holds the valid houses in discovery order, and `_errors` holds the
error lines of the invalid houses followed by those of the invalid
algorithms. -/
theorem construction_successful_iff (le : LoadEnv α η) (allAlgos : List α)
    (allHouses : List η) :
    ((Simulator.new le allAlgos allHouses)._successful = true ↔
        (∃ a ∈ allAlgos, le.algoIsValid a = true) ∧ (∃ h ∈ allHouses, le.houseIsValid h = true))
      ∧ ((Simulator.new le allAlgos allHouses)._successful = true →
          (Simulator.new le allAlgos allHouses)._algos
              = (allAlgos.filter le.algoIsValid).map (fun a => (a, []))
            ∧ (Simulator.new le allAlgos allHouses)._houses
              = allHouses.filter le.houseIsValid
            ∧ (Simulator.new le allAlgos allHouses)._errors
              = (allHouses.filter (fun h => !le.houseIsValid h)).map le.houseErrorLine
                ++ (allAlgos.filter (fun a => !le.algoIsValid a)).map le.algoErrorLine) := by
  have hA : allAlgos.filter le.algoIsValid ≠ [] ↔ ∃ a ∈ allAlgos, le.algoIsValid a = true := by
    simp [List.filter_eq_nil_iff]
  have hH : allHouses.filter le.houseIsValid ≠ [] ↔ ∃ h ∈ allHouses, le.houseIsValid h = true := by
    simp [List.filter_eq_nil_iff]
  rcases Simulator_new_cases le allAlgos allHouses with ⟨hno, hs, -⟩ | ⟨ha, hh, hs, hal, hho, her⟩
  · refine ⟨?_, ?_⟩
    · rw [hs]
      constructor
      · intro h; cases h
      · rintro ⟨h1, h2⟩
        rcases hno with h | h
        · exact absurd h (hA.2 h1)
        · exact absurd h (hH.2 h2)
    · rw [hs]; intro h; cases h
  · exact ⟨⟨fun _ => ⟨hA.1 ha, hH.1 hh⟩, fun _ => hs⟩, fun _ => ⟨hal, hho, her⟩⟩

/-- The `score` calls of a `simulate` over no house. -/
lemma scoreCalls_nil (env : HouseEnv α η σ) (ops : SimulationOps σ) (M : Int)
    (algos : AlgoVector α) : scoreCalls env ops M algos [] = [] := by
  simp [scoreCalls]

/-- C13 (no partial scoring on a failed start): when the constructor ends
without setting `_successful`, `_houses` is empty, and a following `simulate`
returns with `_algos` unchanged, having made no call of `score`, instantiated
no run and invoked no `step()`. -/
theorem no_partial_scoring (le : LoadEnv α η) (env : HouseEnv α η σ) (ops : SimulationOps σ)
    (M : Int) (allAlgos : List α) (allHouses : List η)
    (hfail : (Simulator.new le allAlgos allHouses)._successful = false) :
    (Simulator.new le allAlgos allHouses)._houses = []
      ∧ simulate env ops M (Simulator.new le allAlgos allHouses)._algos
          (Simulator.new le allAlgos allHouses)._houses
        = some (Simulator.new le allAlgos allHouses)._algos
      ∧ scoreCalls env ops M (Simulator.new le allAlgos allHouses)._algos
          (Simulator.new le allAlgos allHouses)._houses = []
      ∧ instantiatedRuns (scoreCalls env ops M (Simulator.new le allAlgos allHouses)._algos
          (Simulator.new le allAlgos allHouses)._houses) = 0
      ∧ stepInvocations (scoreCalls env ops M (Simulator.new le allAlgos allHouses)._algos
          (Simulator.new le allAlgos allHouses)._houses) = 0 := by
  have hh : (Simulator.new le allAlgos allHouses)._houses = [] := by
    rcases Simulator_new_cases le allAlgos allHouses with ⟨-, -, h⟩ | ⟨-, -, hs, -⟩
    · exact h
    · rw [hs] at hfail; cases hfail
  rw [hh, scoreCalls_nil]
  exact ⟨rfl, rfl, rfl, rfl, rfl⟩

/-- A start with one valid algorithm and no valid house among two. -/
theorem no_partial_scoring_witness :
    (Simulator.new testLoadEnv [("a", true)] [("h", false), ("g", false)])._houses = []
      ∧ simulate testHouseEnv scriptOps 2
          (Simulator.new testLoadEnv [("a", true)] [("h", false), ("g", false)])._algos
          (Simulator.new testLoadEnv [("a", true)] [("h", false), ("g", false)])._houses
        = some (Simulator.new testLoadEnv [("a", true)] [("h", false), ("g", false)])._algos
      ∧ scoreCalls testHouseEnv scriptOps 2
          (Simulator.new testLoadEnv [("a", true)] [("h", false), ("g", false)])._algos
          (Simulator.new testLoadEnv [("a", true)] [("h", false), ("g", false)])._houses = []
      ∧ instantiatedRuns (scoreCalls testHouseEnv scriptOps 2
          (Simulator.new testLoadEnv [("a", true)] [("h", false), ("g", false)])._algos
          (Simulator.new testLoadEnv [("a", true)] [("h", false), ("g", false)])._houses) = 0
      ∧ stepInvocations (scoreCalls testHouseEnv scriptOps 2
          (Simulator.new testLoadEnv [("a", true)] [("h", false), ("g", false)])._algos
          (Simulator.new testLoadEnv [("a", true)] [("h", false), ("g", false)])._houses) = 0 :=
  no_partial_scoring testLoadEnv testHouseEnv scriptOps 2 [("a", true)]
    [("h", false), ("g", false)] (by decide)

/-- The cohort handed to `score` for a house has one run per entry of
`_algos`. -/
lemma cohort_length (env : HouseEnv α η σ) (ops : SimulationOps σ) (M : Int)
    (algos : AlgoVector α) (house : η) :
    (merged (schedulerLoop ops (env.getMaxSteps house) M
      (instantiate env house 0 algos))).length = algos.length := by
  have h := (schedulerLoop_addr_perm ops (env.getMaxSteps house) M
    (instantiate env house 0 algos)).length_eq
  simpa [instantiate_length] using h

/-- With a non-empty `_algos`, the loop over the houses calls `score` once per
house, each time with `_algos` of the length it had at the start and a cohort
of that length. -/
lemma scoreCallsHouses_spec (env : HouseEnv α η σ) (ops : SimulationOps σ) (M : Int) :
    ∀ (houses : List η) (algos : AlgoVector α), algos ≠ [] →
      (scoreCallsHouses env ops M algos houses).length = houses.length
        ∧ ∀ c ∈ scoreCallsHouses env ops M algos houses,
            c.algos.length = algos.length ∧ c.simulatios_.length = c.algos.length := by
  intro houses
  induction houses with
  | nil => intro algos _; simp [scoreCallsHouses]
  | cons h hs ih =>
    intro algos hne
    obtain ⟨algos1, hrun, hlen1, -⟩ := simulateHouse_spec env ops M algos h hne
    have hrun1 : score ops algos
        (schedulerLoop ops (env.getMaxSteps h) M (instantiate env h 0 algos)).stepsCount
        (merged (schedulerLoop ops (env.getMaxSteps h) M (instantiate env h 0 algos)))
        = some algos1 := hrun
    have hne1 : algos1 ≠ [] := by
      intro h0
      rw [h0] at hlen1
      exact hne (List.length_eq_zero.1 hlen1.symm)
    obtain ⟨ihlen, ihspec⟩ := ih algos1 hne1
    simp only [scoreCallsHouses, hrun1, List.length_cons, ihlen, List.mem_cons, true_and]
    intro c hc
    rcases hc with hc | hc
    · subst hc
      exact ⟨rfl, cohort_length env ops M algos h⟩
    · obtain ⟨h1, h2⟩ := ihspec c hc
      exact ⟨by rw [h1, hlen1], h2⟩

/-- C17 (scoring never indexes out of range): every call of `score` made by
`simulate` after the constructor receives a non-empty cohort with as many
runs as `_algos` has entries, so that `at(0)` returns, every index into
`_algos` is within bounds, the search loop of `getActualPosition` returns for
every run of the sorted vector, and `score` returns; `simulate` returns, with
one call of `score` per house. -/
theorem score_calls_in_range (le : LoadEnv α η) (env : HouseEnv α η σ) (ops : SimulationOps σ)
    (M : Int) (allAlgos : List α) (allHouses : List η) :
    (∀ c ∈ scoreCalls env ops M (Simulator.new le allAlgos allHouses)._algos
          (Simulator.new le allAlgos allHouses)._houses,
        c.simulatios_ ≠ []
          ∧ c.simulatios_.length = c.algos.length
          ∧ (winnerNumSteps ops c.simulationSteps (sortByAddress c.simulatios_)).isSome = true
          ∧ (∀ index, index < (sortByAddress c.simulatios_).length → index < c.algos.length)
          ∧ (∀ cur ∈ sortByAddress c.simulatios_,
              (getActualPosition ops (sortByAddress c.simulatios_) cur).isSome = true)
          ∧ (score ops c.algos c.simulationSteps c.simulatios_).isSome = true)
      ∧ (scoreCalls env ops M (Simulator.new le allAlgos allHouses)._algos
          (Simulator.new le allAlgos allHouses)._houses).length
          = (Simulator.new le allAlgos allHouses)._houses.length
      ∧ (simulate env ops M (Simulator.new le allAlgos allHouses)._algos
          (Simulator.new le allAlgos allHouses)._houses).isSome = true := by
  rcases Simulator_new_cases le allAlgos allHouses with ⟨-, -, hh⟩ | ⟨ha, -, -, hal, -, -⟩
  · rw [hh, scoreCalls_nil]
    refine ⟨?_, rfl, rfl⟩
    intro c hc
    cases hc
  · have hne : (Simulator.new le allAlgos allHouses)._algos ≠ [] := by
      rw [hal]
      simpa using ha
    obtain ⟨hlen, hspec⟩ := scoreCallsHouses_spec env ops M
      (Simulator.new le allAlgos allHouses)._houses _ hne
    have hcalls : scoreCalls env ops M (Simulator.new le allAlgos allHouses)._algos
        (Simulator.new le allAlgos allHouses)._houses
        = scoreCallsHouses env ops M (Simulator.new le allAlgos allHouses)._algos
          (Simulator.new le allAlgos allHouses)._houses := by
      cases hhs : (Simulator.new le allAlgos allHouses)._houses with
      | nil => rfl
      | cons x xs => simp [scoreCalls]
    rw [hcalls]
    refine ⟨?_, hlen, ?_⟩
    · intro c hc
      obtain ⟨h1, h2⟩ := hspec c hc
      have hcne : c.algos ≠ [] := by
        intro h0
        rw [h0] at h1
        exact hne (List.length_eq_zero.1 h1.symm)
      have hpos : 0 < c.algos.length := List.length_pos.2 hcne
      obtain ⟨algos1, winner, hrun, hwin, -, -⟩ :=
        score_spec ops c.algos c.simulationSteps c.simulatios_ hcne h2
      refine ⟨?_, h2, ?_, ?_, ?_, ?_⟩
      · intro h0
        rw [h0] at h2
        simp at h2
        omega
      · rw [hwin]; rfl
      · intro index hi
        rw [(sortByAddress_perm c.simulatios_).length_eq, h2] at hi
        exact hi
      · intro cur hcur
        obtain ⟨p, hp⟩ := getActualPositionLoop_returns ops cur (sortByAddress c.simulatios_)
          none 1 ⟨cur, hcur, rfl⟩
        simp only [getActualPosition, hp, Option.isSome_some]
      · rw [hrun]; rfl
    · obtain ⟨algos1, hrun, -, -⟩ := simulateHouses_spec env ops M
        (Simulator.new le allAlgos allHouses)._houses _ hne
      rw [simulate_eq_simulateHouses, hrun]
      rfl

/-- `std::equal` on a first range no longer than the second decides whether
the first is a beginning of the second. -/
lemma stdEqual_iff : ∀ (a b : List Char), stdEqual a b = true ↔ a <+: b := by
  intro a
  induction a with
  | nil => intro b; simp [stdEqual]
  | cons x xs ih =>
    intro b
    cases b with
    | nil => simp [stdEqual]
    | cons y ys =>
      by_cases hxy : x = y
      · subst hxy
        simp [stdEqual, ih, List.cons_prefix_cons]
      · simp [stdEqual, hxy, List.cons_prefix_cons]

/-- `endsWith` decides whether `ending` is a suffix of `value`. -/
lemma endsWith_iff (value ending : CppString) :
    endsWith value ending = true ↔ ending <:+ value := by
  unfold endsWith
  split_ifs with h
  · constructor
    · intro h0; cases h0
    · intro hs
      have := hs.length_le
      omega
  · rw [stdEqual_iff, List.reverse_prefix]

/-- The loop over the directory collects, in the order of the listing, the
paths of the regular files that end with the suffix. -/
lemma loadFilesLoop_eq (suffix : CppString) :
    ∀ (listing : List (CppString × Bool)) (result : List CppString),
      loadFilesLoop suffix listing result
        = result ++ (listing.filter (fun e => e.2 && endsWith e.1 suffix)).map Prod.fst := by
  intro listing
  induction listing with
  | nil => intro result; simp [loadFilesLoop]
  | cons e rest ih =>
    intro result
    by_cases h : (e.2 && endsWith e.1 suffix) = true
    · simp [loadFilesLoop, h, ih]
    · simp [loadFilesLoop, h, ih]

/-- C15 (suffix filter): `endsWith(value, ending)` is true if and only if
`ending` is a suffix of `value`, false whenever `ending` is longer than
`value` and true for the empty `ending`; `loadFilesWithSuffix` on a directory
returns, in ascending order, exactly the paths of the regular files of the
listing for which `endsWith(path, suffix)` holds, and the empty list when the
path is not a directory. -/
theorem suffix_filter :
    (∀ value ending : CppString, endsWith value ending = true ↔ ending <:+ value)
      ∧ (∀ value ending : CppString, ending.length > value.length →
          endsWith value ending = false)
      ∧ (∀ value : CppString, endsWith value [] = true)
      ∧ (∀ (listing : List (CppString × Bool)) (suffix : CppString),
          (loadFilesWithSuffix true listing suffix).Sorted (fun a b => a ≤ b)
            ∧ (loadFilesWithSuffix true listing suffix).Perm
                ((listing.filter (fun e => e.2 && endsWith e.1 suffix)).map Prod.fst))
      ∧ (∀ (listing : List (CppString × Bool)) (suffix : CppString),
          loadFilesWithSuffix false listing suffix = []) := by
  refine ⟨endsWith_iff, ?_, ?_, ?_, ?_⟩
  · intro value ending h
    simp [endsWith, h]
  · intro value
    exact (endsWith_iff value []).2 List.nil_suffix
  · intro listing suffix
    simp only [loadFilesWithSuffix, Bool.not_true, Bool.false_eq_true, if_false,
      loadFilesLoop_eq, List.nil_append]
    exact ⟨List.sorted_insertionSort _ _, List.perm_insertionSort _ _⟩
  · intro listing suffix
    simp [loadFilesWithSuffix]

/-- The files ending with `_.so` of a listing of four entries, one of them not
a regular file. -/
theorem loadFilesWithSuffix_example :
    loadFilesWithSuffix true
        [("b_.so".data, true), ("a_.so".data, true), ("c.txt".data, true), ("d_.so".data, false)]
        "_.so".data = ["a_.so".data, "b_.so".data] := by
  decide

end LoadingProperties

/-! ## Active and stopped runs -/

section StoppedProperties

variable {σ : Type}

/-- Every run left active by the inner loop was active before, its `step()`
returned true, and it is not done. -/
lemma innerLoop_active (ops : SimulationOps σ) :
    ∀ (active stopped : List (Simulation σ)) (flag : Bool),
      ∀ x ∈ (innerLoop ops active stopped flag).1,
        ∃ y ∈ active, y.addr = x.addr ∧ ops.step y.obj = (true, x.obj)
          ∧ ops.isDone x.obj = false := by
  intro active
  induction active with
  | nil => intro stopped flag x hx; simp [innerLoop] at hx
  | cons s rest ih =>
    intro stopped flag x hx
    by_cases h1 : (!(ops.step s.obj).1 || ops.isDone (ops.step s.obj).2) = true
    · rw [innerLoop_cons_stop ops s rest stopped flag h1] at hx
      obtain ⟨y, hy, h⟩ := ih _ _ x hx
      exact ⟨y, List.mem_cons_of_mem _ hy, h⟩
    · rw [innerLoop_cons_keep ops s rest stopped flag h1] at hx
      rcases List.mem_cons.1 hx with hx | hx
      · subst hx
        simp only [Bool.or_eq_true, Bool.not_eq_true', not_or, Bool.not_eq_false,
          Bool.not_eq_true] at h1
        refine ⟨s, List.mem_cons_self _ _, rfl, ?_, h1.2⟩
        exact Prod.ext h1.1 rfl
      · obtain ⟨y, hy, h⟩ := ih _ _ x hx
        exact ⟨y, List.mem_cons_of_mem _ hy, h⟩

/-- The stopped list after the inner loop is the stopped list before it
followed by the runs stopped in this round: the runs whose `step()` returned
false or that are done after it, in the state that step left them in.  The
winner flag is set when it was set before or one of the runs stopped in this
round is done. -/
lemma innerLoop_stopped (ops : SimulationOps σ) :
    ∀ (active stopped : List (Simulation σ)) (flag : Bool),
      ∃ fresh : List (Simulation σ),
        (innerLoop ops active stopped flag).2.1 = stopped ++ fresh
          ∧ (∀ y ∈ active,
              ((ops.step y.obj).1 = false ∨ ops.isDone (ops.step y.obj).2 = true) →
              ∃ x ∈ fresh, x.addr = y.addr ∧ x.obj = (ops.step y.obj).2)
          ∧ (innerLoop ops active stopped flag).2.2
              = (flag || fresh.any (fun x => ops.isDone x.obj)) := by
  intro active
  induction active with
  | nil => intro stopped flag; exact ⟨[], by simp [innerLoop]⟩
  | cons s rest ih =>
    intro stopped flag
    by_cases h1 : (!(ops.step s.obj).1 || ops.isDone (ops.step s.obj).2) = true
    · rw [innerLoop_cons_stop ops s rest stopped flag h1]
      obtain ⟨fresh, hst, hall, hflag⟩ := ih
        (stopped ++ [{ addr := s.addr, obj := (ops.step s.obj).2,
                       stepCalls := s.stepCalls + 1 }])
        (if ops.isDone (ops.step s.obj).2 then true else flag)
      refine ⟨{ addr := s.addr, obj := (ops.step s.obj).2, stepCalls := s.stepCalls + 1 }
        :: fresh, ?_, ?_, ?_⟩
      · rw [hst]; simp
      · intro y hy hstop
        rcases List.mem_cons.1 hy with hy | hy
        · subst hy
          exact ⟨_, List.mem_cons_self _ _, rfl, rfl⟩
        · obtain ⟨x, hx, h⟩ := hall y hy hstop
          exact ⟨x, List.mem_cons_of_mem _ hx, h⟩
      · rw [hflag]
        cases hd : ops.isDone (ops.step s.obj).2 <;> cases flag <;> simp [hd]
    · rw [innerLoop_cons_keep ops s rest stopped flag h1]
      obtain ⟨fresh, hst, hall, hflag⟩ := ih stopped flag
      refine ⟨fresh, hst, ?_, hflag⟩
      intro y hy hstop
      rcases List.mem_cons.1 hy with hy | hy
      · subst hy
        exfalso
        apply h1
        rcases hstop with h | h
        · simp [h]
        · simp [h]
      · exact hall y hy hstop

/-- After any number of rounds the winner flag is set exactly when a run of
the stopped list is done. -/
lemma afterRounds_flag (ops : SimulationOps σ) (sims : List (Simulation σ)) :
    ∀ j : Nat, (afterRounds ops sims j).atLeastOneDone
      = (afterRounds ops sims j).tempSoppedSimulatios.any (fun x => ops.isDone x.obj) := by
  intro j
  induction j with
  | zero => rfl
  | succ n ih =>
    rw [afterRounds_succ]
    obtain ⟨fresh, hst, -, hflag⟩ := innerLoop_stopped ops
      (afterRounds ops sims n).simulations (afterRounds ops sims n).tempSoppedSimulatios
      (afterRounds ops sims n).atLeastOneDone
    have h1 : (loopBody ops (afterRounds ops sims n)).tempSoppedSimulatios
        = (afterRounds ops sims n).tempSoppedSimulatios ++ fresh := hst
    have h2 : (loopBody ops (afterRounds ops sims n)).atLeastOneDone
        = ((afterRounds ops sims n).atLeastOneDone
            || fresh.any (fun x => ops.isDone x.obj)) := hflag
    rw [h1, h2, ih, List.any_append]

/-- C16 (stopped runs stay stopped): the scheduler loop ends in the state
reached after some number of rounds, and for every round, on a cohort whose
pointers are pairwise different: every run active at the end of the round was
active before it, had its `step()` of the round return true and is not done;
every active run whose `step()` returned false or that became done is in the
stopped list at the end of the round; the stopped list only grows at its end,
its runs left as they were, and no pointer is both active and stopped, so
that `step()` is not invoked again on a stopped run; and the winner flag is
true if and only if some run of the stopped list is done. -/
theorem stopped_runs_stay_stopped (ops : SimulationOps σ) (sims : List (Simulation σ))
    (hnd : (sims.map Simulation.addr).Nodup) (j : Nat) :
    (∀ maxSteps M : Int, ∃ k, schedulerLoop ops maxSteps M sims = afterRounds ops sims k)
      ∧ (∀ x ∈ (afterRounds ops sims (j + 1)).simulations,
          ∃ y ∈ (afterRounds ops sims j).simulations,
            y.addr = x.addr ∧ ops.step y.obj = (true, x.obj) ∧ ops.isDone x.obj = false)
      ∧ (∀ y ∈ (afterRounds ops sims j).simulations,
          ((ops.step y.obj).1 = false ∨ ops.isDone (ops.step y.obj).2 = true) →
          ∃ x ∈ (afterRounds ops sims (j + 1)).tempSoppedSimulatios,
            x.addr = y.addr ∧ x.obj = (ops.step y.obj).2)
      ∧ ((afterRounds ops sims j).tempSoppedSimulatios
          <+: (afterRounds ops sims (j + 1)).tempSoppedSimulatios)
      ∧ (∀ x ∈ (afterRounds ops sims j).simulations,
          ∀ y ∈ (afterRounds ops sims j).tempSoppedSimulatios, x.addr ≠ y.addr)
      ∧ ((afterRounds ops sims j).atLeastOneDone = true ↔
          ∃ x ∈ (afterRounds ops sims j).tempSoppedSimulatios, ops.isDone x.obj = true) := by
  obtain ⟨fresh, hst, hall, -⟩ := innerLoop_stopped ops
    (afterRounds ops sims j).simulations (afterRounds ops sims j).tempSoppedSimulatios
    (afterRounds ops sims j).atLeastOneDone
  have hst1 : (afterRounds ops sims (j + 1)).tempSoppedSimulatios
      = (afterRounds ops sims j).tempSoppedSimulatios ++ fresh := by
    rw [afterRounds_succ]; exact hst
  refine ⟨?_, ?_, ?_, ?_, ?_, ?_⟩
  · intro maxSteps M
    obtain ⟨k, -, heq, -, -⟩ := schedulerLoop_rounds ops maxSteps M sims
    exact ⟨k, heq⟩
  · intro x hx
    rw [afterRounds_succ] at hx
    exact innerLoop_active ops _ _ _ x hx
  · intro y hy hstop
    obtain ⟨x, hx, h⟩ := hall y hy hstop
    exact ⟨x, by rw [hst1]; exact List.mem_append_right _ hx, h⟩
  · rw [hst1]
    exact List.prefix_append _ _
  · intro x hx y hy hxy
    have hperm := afterRounds_addr_perm ops sims j
    have hnd2 : ((merged (afterRounds ops sims j)).map Simulation.addr).Nodup :=
      hperm.nodup_iff.2 hnd
    simp only [merged, List.map_append] at hnd2
    have hdis := (List.nodup_append.1 hnd2).2.2
    exact hdis (List.mem_map_of_mem _ hx) (hxy ▸ List.mem_map_of_mem _ hy)
  · rw [afterRounds_flag, List.any_eq_true]

/-- A cohort of a run that finishes at step 2 and a run that never finishes,
at the end of round 2. -/
theorem stopped_runs_stay_stopped_witness :
    (∀ maxSteps M : Int, ∃ k, schedulerLoop scriptOps maxSteps M [freshRun 1 2, freshRun 2 (-1)]
        = afterRounds scriptOps [freshRun 1 2, freshRun 2 (-1)] k)
      ∧ (∀ x ∈ (afterRounds scriptOps [freshRun 1 2, freshRun 2 (-1)] (1 + 1)).simulations,
          ∃ y ∈ (afterRounds scriptOps [freshRun 1 2, freshRun 2 (-1)] 1).simulations,
            y.addr = x.addr ∧ scriptOps.step y.obj = (true, x.obj)
              ∧ scriptOps.isDone x.obj = false)
      ∧ (∀ y ∈ (afterRounds scriptOps [freshRun 1 2, freshRun 2 (-1)] 1).simulations,
          ((scriptOps.step y.obj).1 = false ∨ scriptOps.isDone (scriptOps.step y.obj).2 = true) →
          ∃ x ∈ (afterRounds scriptOps [freshRun 1 2, freshRun 2 (-1)]
              (1 + 1)).tempSoppedSimulatios,
            x.addr = y.addr ∧ x.obj = (scriptOps.step y.obj).2)
      ∧ ((afterRounds scriptOps [freshRun 1 2, freshRun 2 (-1)] 1).tempSoppedSimulatios
          <+: (afterRounds scriptOps [freshRun 1 2, freshRun 2 (-1)]
            (1 + 1)).tempSoppedSimulatios)
      ∧ (∀ x ∈ (afterRounds scriptOps [freshRun 1 2, freshRun 2 (-1)] 1).simulations,
          ∀ y ∈ (afterRounds scriptOps [freshRun 1 2, freshRun 2 (-1)] 1).tempSoppedSimulatios,
            x.addr ≠ y.addr)
      ∧ ((afterRounds scriptOps [freshRun 1 2, freshRun 2 (-1)] 1).atLeastOneDone = true ↔
          ∃ x ∈ (afterRounds scriptOps [freshRun 1 2, freshRun 2 (-1)] 1).tempSoppedSimulatios,
            scriptOps.isDone x.obj = true) :=
  stopped_runs_stay_stopped scriptOps [freshRun 1 2, freshRun 2 (-1)] (by decide) 1

end StoppedProperties

/-! ## Monotonicity of the positions -/

section MonotoneProperties

variable {σ : Type}

/-- Past the first run of the vector, the search loops for two runs `a` and
`b`, `a` before `b`, take the same steps until `a` is reached, so the position
of `a` is at most that of `b`. -/
lemma getActualPositionLoop_mono (ops : SimulationOps σ) (a b : Simulation σ) :
    ∀ (l : List (Simulation σ)) (q : Simulation σ) (pos pa pb : Int),
      (l.map Simulation.addr).Nodup → List.Sublist [a, b] l →
      getActualPositionLoop ops a (some q) l pos = some pa →
      getActualPositionLoop ops b (some q) l pos = some pb → pa ≤ pb := by
  intro l
  induction l with
  | nil => intro q pos pa pb _ hab; cases hab
  | cons x xs ih =>
    intro q pos pa pb hnd hab ha hb
    simp only [List.map_cons, List.nodup_cons, List.mem_map, not_exists, not_and] at hnd
    by_cases hxa : x.addr = a.addr
    · have hpa : pa = min pos 4 := by
        simp only [getActualPositionLoop, hxa, if_true, Option.some.injEq] at ha
        exact ha.symm
      have hbb := getActualPositionLoop_bounds ops b _ _ _ _ hb
      omega
    · have hsub : List.Sublist [a, b] xs := by
        cases hab with
        | cons _ h => exact h
        | cons₂ _ h => exact absurd rfl hxa
      have hbmem : b ∈ xs := hsub.subset (by simp)
      have hxb : ¬ x.addr = b.addr := fun h => hnd.1 b hbmem h.symm
      simp only [getActualPositionLoop, hxa, if_false] at ha
      simp only [getActualPositionLoop, hxb, if_false] at hb
      by_cases h2 : ops.getStepsCount x.obj ≠ ops.getStepsCount q.obj
      · rw [if_pos h2] at ha hb
        by_cases h3 : pos + 1 ≥ 4
        · rw [if_pos h3] at ha hb
          simp only [Option.some.injEq] at ha hb
          omega
        · rw [if_neg h3] at ha hb
          exact ih x (pos + 1) pa pb hnd.2 hsub ha hb
      · rw [if_neg h2] at ha hb
        exact ih x pos pa pb hnd.2 hsub ha hb

/-- C18 (positions are monotone in rank): in a cohort ordered by the ordering
rule, whose pointers are pairwise different, `getActualPosition` returns for
two finished runs `a` and `b`, `a` before `b`, positions with that of `a` at
most that of `b`; and a run with strictly more steps than the first run of
the cohort does not receive position 1. -/
theorem positions_monotone (ops : SimulationOps σ) (l : List (Simulation σ))
    (a b : Simulation σ) (hord : OrderedByRule ops l)
    (hnd : (l.map Simulation.addr).Nodup) (hab : List.Sublist [a, b] l)
    (ha : ops.isDone a.obj = true) (hb : ops.isDone b.obj = true) :
    (∃ pa pb, getActualPosition ops l a = some pa ∧ getActualPosition ops l b = some pb
        ∧ pa ≤ pb)
      ∧ (∀ first rest c, l = first :: rest → c ∈ l →
          ops.getStepsCount first.obj < ops.getStepsCount c.obj →
          getActualPosition ops l c ≠ some 1) := by
  have hamem : a ∈ l := hab.subset (by simp)
  have hbmem : b ∈ l := hab.subset (by simp)
  constructor
  · obtain ⟨pa, hpa⟩ := getActualPositionLoop_returns ops a l none 1 ⟨a, hamem, rfl⟩
    obtain ⟨pb, hpb⟩ := getActualPositionLoop_returns ops b l none 1 ⟨b, hbmem, rfl⟩
    refine ⟨pa, pb, hpa, hpb, ?_⟩
    have hbb := getActualPositionLoop_bounds ops b _ _ _ _ hpb
    cases l with
    | nil => cases hab
    | cons first rest =>
      by_cases h1 : first.addr = a.addr
      · simp only [getActualPositionLoop, h1, if_true, Option.some.injEq] at hpa
        omega
      · have hsub : List.Sublist [a, b] rest := by
          cases hab with
          | cons _ h => exact h
          | cons₂ _ h => exact absurd rfl h1
        have hbrest : b ∈ rest := hsub.subset (by simp)
        simp only [List.map_cons, List.nodup_cons, List.mem_map, not_exists, not_and] at hnd
        have h1b : ¬ first.addr = b.addr := fun h => hnd.1 b hbrest h.symm
        have hrb : rankedBefore ops b a = false := by
          have hp := List.Pairwise.sublist hab hord
          exact (List.pairwise_cons.1 hp).1 b (by simp)
        simp only [rankedBefore, ha, hb, Bool.true_and, Bool.not_true, Bool.and_false,
          Bool.or_false, decide_eq_false_iff_not, not_lt] at hrb
        simp only [getActualPositionLoop, h1, if_false] at hpa
        simp only [getActualPositionLoop, h1b, if_false] at hpb
        by_cases h2 : ops.getStepsCount first.obj < ops.getStepsCount a.obj
        · have h2b : ops.getStepsCount first.obj < ops.getStepsCount b.obj := by omega
          rw [if_pos h2] at hpa
          rw [if_pos h2b] at hpb
          exact getActualPositionLoop_mono ops a b rest first 2 pa pb hnd.2 hsub hpa hpb
        · rw [if_neg h2] at hpa
          simp only [Option.some.injEq] at hpa
          omega
  · intro first rest c hl hc hlt heq
    subst hl
    have h1 : ¬ first.addr = c.addr := by
      intro h
      have hfc : first = c := eq_of_addr_eq hnd (List.mem_cons_self _ _) hc h
      rw [hfc] at hlt
      omega
    simp only [getActualPosition, getActualPositionLoop, h1, if_false, hlt, if_true] at heq
    have hbnd := getActualPositionLoop_bounds ops c _ _ _ _ heq
    omega

/-- Finished runs with 10, 20 and 30 steps: the positions of the second and
of the third. -/
theorem positions_monotone_witness :
    (∃ pa pb,
        getActualPosition scriptOps [finishedRun 1 10, finishedRun 2 20, finishedRun 3 30]
            (finishedRun 2 20) = some pa
          ∧ getActualPosition scriptOps [finishedRun 1 10, finishedRun 2 20, finishedRun 3 30]
              (finishedRun 3 30) = some pb
          ∧ pa ≤ pb)
      ∧ (∀ first rest c,
          [finishedRun 1 10, finishedRun 2 20, finishedRun 3 30] = first :: rest →
          c ∈ [finishedRun 1 10, finishedRun 2 20, finishedRun 3 30] →
          scriptOps.getStepsCount first.obj < scriptOps.getStepsCount c.obj →
          getActualPosition scriptOps [finishedRun 1 10, finishedRun 2 20, finishedRun 3 30] c
            ≠ some 1) :=
  positions_monotone scriptOps [finishedRun 1 10, finishedRun 2 20, finishedRun 3 30]
    (finishedRun 2 20) (finishedRun 3 30) (by decide) (by decide) (by decide) (by decide)
    (by decide)

end MonotoneProperties

end TAURobot
